import Mathlib

/-!
# Verification of `everything_claude_code/cli.py`

A shallow embedding of the CLI's pure core: JSON values, the recursive
dictionary deep-merge, the JSON read/write store, the scoped MCP-server
merge, the filesystem-path reconciliation state machine, and the
directory-linking step.  Python dictionaries are modelled as ordered
association lists with (for genuine dicts) no duplicate keys; Python
strings as lists of Unicode scalar values; JSON numbers as integers
(floating-point JSON numbers are outside the model).  Python exceptions
are modelled by `Option` (`none` = the operation raises).
-/

set_option autoImplicit false

namespace ECC

/-- Python strings, modelled as lists of Unicode scalar values. -/
abbrev Str := List Char

/-- JSON values.  `obj` fields are in insertion order, as in a Python dict. -/
inductive JVal where
  | null
  | bool (b : Bool)
  | num (n : Int)
  | str (s : Str)
  | arr (elems : List JVal)
  | obj (fields : List (Str × JVal))
  deriving Repr

instance : Inhabited JVal := ⟨JVal.null⟩

/-- A JSON object body / Python dict body. -/
abbrev Dict := List (Str × JVal)

/-- Python `d[k]` / `k in d` as an optional lookup (first matching key). -/
def lookupA : Dict → Str → Option JVal
  | [], _ => none
  | (k', v) :: rest, k => if k' = k then some v else lookupA rest k

/-- Python `d[k] = v`: update the first occurrence in place (keeping the
original key object and position), or append a new entry at the end. -/
def setKey : Dict → Str → JVal → Dict
  | [], k, v => [(k, v)]
  | (k', v') :: rest, k, v =>
      if k' = k then (k', v) :: rest else (k', v') :: setKey rest k v

/-- The keys of a dict, in order. -/
def keysOf (m : Dict) : List Str := m.map Prod.fst

/-- Python `d.get(k, default)`. -/
def getD (m : Dict) (k : Str) (d : JVal) : JVal := (lookupA m k).getD d

mutual
/-- `_deep_merge(base, overlay)` from cli.py:
`merged = {**base}`, then for each `(key, value)` of `overlay` in order,
if `key` is in `merged` and both `merged[key]` and `value` are dicts,
`merged[key] = _deep_merge(merged[key], value)`, else `merged[key] = value`. -/
def deepMerge (base : Dict) : Dict → Dict
  | [] => base
  | (k, v) :: rest => deepMerge (setKey base k (mergeValue (lookupA base k) v)) rest
termination_by structural overlay => overlay

/-- The value stored by one iteration of the `_deep_merge` loop: recursive
merge when the key was already present with a dict value and the overlay
value is a dict, otherwise the overlay value. -/
def mergeValue (bv : Option JVal) (v : JVal) : JVal :=
  match bv, v with
  | some (.obj bf), .obj of => JVal.obj (deepMerge bf of)
  | _, _ => v
termination_by structural v
end

theorem deepMerge_nil (base : Dict) : deepMerge base [] = base := by
  simp [deepMerge]

theorem deepMerge_cons (base : Dict) (k : Str) (v : JVal) (rest : Dict) :
    deepMerge base ((k, v) :: rest)
      = deepMerge (setKey base k (mergeValue (lookupA base k) v)) rest := by
  rw [deepMerge]

theorem mergeValue_none (v : JVal) : mergeValue none v = v := by
  cases v <;> simp [mergeValue]

/-! ## Basic dict lemmas -/

theorem keysOf_cons (k : Str) (v : JVal) (tl : Dict) :
    keysOf ((k, v) :: tl) = k :: keysOf tl := rfl

theorem keysOf_append (a b : Dict) : keysOf (a ++ b) = keysOf a ++ keysOf b :=
  List.map_append _ a b

theorem lookupA_setKey : ∀ (m : Dict) (k : Str) (v : JVal) (j : Str),
    lookupA (setKey m k v) j = if k = j then some v else lookupA m j
  | [], k, v, j => by
      by_cases hj : k = j <;> simp [setKey, lookupA, hj]
  | (k1, v1) :: tl, k, v, j => by
      by_cases h1 : k1 = k
      · subst h1
        by_cases hj : k1 = j
        · subst hj; simp [setKey, lookupA]
        · simp [setKey, lookupA, hj]
      · by_cases hj : k1 = j
        · subst hj
          have hkj : ¬k = k1 := fun h => h1 h.symm
          simp [setKey, lookupA, h1, hkj]
        · simp [setKey, lookupA, h1, hj, lookupA_setKey tl k v j]

theorem setKey_of_not_mem (k : Str) (v : JVal) :
    ∀ m : Dict, k ∉ keysOf m → setKey m k v = m ++ [(k, v)]
  | [], _ => rfl
  | (k1, v1) :: tl, h => by
      rw [keysOf_cons, List.mem_cons, not_or] at h
      rw [setKey, if_neg (fun hh => h.1 hh.symm), List.cons_append,
        setKey_of_not_mem k v tl h.2]

theorem lookupA_eq_none_of_not_mem (k : Str) :
    ∀ m : Dict, k ∉ keysOf m → lookupA m k = none
  | [], _ => rfl
  | (k1, v1) :: tl, h => by
      rw [keysOf_cons, List.mem_cons, not_or] at h
      rw [lookupA, if_neg (fun hh => h.1 hh.symm),
        lookupA_eq_none_of_not_mem k tl h.2]

/-! ## Deep merge characterization -/

/-- Merging a dict whose keys are all fresh for the base appends it. -/
theorem deepMerge_disjoint :
    ∀ (overlay base : Dict), (keysOf overlay).Nodup →
    (∀ k, k ∈ keysOf overlay → k ∉ keysOf base) →
    deepMerge base overlay = base ++ overlay
  | [], base, _, _ => by simp [deepMerge]
  | (k, v) :: tl, base, hnd, hdisj => by
      have hk : k ∉ keysOf base := hdisj k (by rw [keysOf_cons]; exact List.mem_cons_self k _)
      have hlk : lookupA base k = none := lookupA_eq_none_of_not_mem k base hk
      rw [keysOf_cons, List.nodup_cons] at hnd
      rw [deepMerge_cons, hlk, mergeValue_none, setKey_of_not_mem k v base hk,
        deepMerge_disjoint tl (base ++ [(k, v)]) hnd.2 ?_]
      · simp
      · intro j hj
        rw [keysOf_append, List.mem_append, not_or]
        refine ⟨hdisj j (by rw [keysOf_cons]; exact List.mem_cons_of_mem k hj), ?_⟩
        rw [keysOf_cons]
        intro hmem
        rcases List.mem_cons.1 hmem with h | h
        · rw [h] at hj; exact hnd.1 hj
        · simp [keysOf] at h

/-- Merging into an empty base returns the overlay. -/
theorem deepMerge_nil_left (overlay : Dict) (h : (keysOf overlay).Nodup) :
    deepMerge [] overlay = overlay := by
  have := deepMerge_disjoint overlay [] h (fun k _ hk => by simp [keysOf] at hk)
  simpa using this

/-- Full per-key characterization of the deep merge, for overlays with
distinct keys (every Python dict has distinct keys). -/
theorem lookupA_deepMerge :
    ∀ (overlay base : Dict), (keysOf overlay).Nodup → ∀ j : Str,
    lookupA (deepMerge base overlay) j =
      match lookupA overlay j with
      | some v => some (mergeValue (lookupA base j) v)
      | none => lookupA base j
  | [], base, _, j => by simp [deepMerge, lookupA]
  | (k, v) :: tl, base, hnd, j => by
      rw [keysOf_cons, List.nodup_cons] at hnd
      rw [deepMerge_cons, lookupA_deepMerge tl _ hnd.2 j]
      by_cases hj : k = j
      · subst hj
        have htl : lookupA tl k = none :=
          lookupA_eq_none_of_not_mem k tl hnd.1
        rw [htl, lookupA, if_pos rfl, lookupA_setKey, if_pos rfl]
      · rw [lookupA, if_neg hj, lookupA_setKey, if_neg hj]

/-- C1: per-key behaviour of `_deep_merge`.  For a key mapped to dicts on
both sides, the result holds their recursive merge; for any other key
present in the overlay, exactly the overlay value (lists and scalars
replace wholesale); keys only in the base keep their base value, and keys
only in the overlay are added. -/
theorem deep_merge_per_key_spec (base overlay : Dict)
    (hov : (keysOf overlay).Nodup) (k : Str) :
    lookupA (deepMerge base overlay) k =
      match lookupA base k, lookupA overlay k with
      | some (JVal.obj bf), some (JVal.obj of) => some (JVal.obj (deepMerge bf of))
      | _, some v => some v
      | bv, none => bv := by
  rw [lookupA_deepMerge overlay base hov k]
  cases ho : lookupA overlay k with
  | none =>
      cases hb : lookupA base k with
      | none => rfl
      | some bv => cases bv <;> rfl
  | some v =>
      cases hb : lookupA base k with
      | none => cases v <;> simp [mergeValue]
      | some bv => cases bv <;> cases v <;> simp [mergeValue]

/-- Witness for C1 at concrete dicts: overlay list replaces base list,
overlay scalar replaces nested base dict, base-only key kept. -/
theorem deep_merge_per_key_spec_witness :
    lookupA
        (deepMerge
          [(['k'], JVal.arr [JVal.num 1]), (['b'], JVal.num 7)]
          [(['k'], JVal.arr [JVal.num 2, JVal.num 3])])
        ['k']
      = some (JVal.arr [JVal.num 2, JVal.num 3]) :=
  (deep_merge_per_key_spec
      [(['k'], JVal.arr [JVal.num 1]), (['b'], JVal.num 7)]
      [(['k'], JVal.arr [JVal.num 2, JVal.num 3])]
      (by decide) ['k']).trans (by rfl)

/-- C6: the empty mapping is a right identity of `_deep_merge`, and a left
identity on every genuine dict (distinct keys). -/
theorem deep_merge_empty_identity :
    (∀ A : Dict, deepMerge A [] = A) ∧
    (∀ B : Dict, (keysOf B).Nodup → deepMerge [] B = B) :=
  ⟨deepMerge_nil, deepMerge_nil_left⟩

/-- Witness for C6 at concrete dicts. -/
theorem deep_merge_empty_identity_witness :
    deepMerge [(['a'], JVal.num 1)] [] = [(['a'], JVal.num 1)] ∧
    deepMerge [] [(['b'], JVal.obj []), (['c'], JVal.str ['x'])]
      = [(['b'], JVal.obj []), (['c'], JVal.str ['x'])] :=
  ⟨deep_merge_empty_identity.1 _, deep_merge_empty_identity.2 _ (by decide)⟩

/-! ## The scoped MCP-server merge (`_merge_mcp_servers`) -/

/-- The JSON keys the CLI manipulates, and the filesystem-path placeholder. -/
def kMcpServers : Str := "mcpServers".toList

def kFilesystem : Str := "filesystem".toList

def kArgs : Str := "args".toList

/-- `FS_PATH_PLACEHOLDER` from cli.py. -/
def fsPathPlaceholder : Str := "YOUR_FILESYSTEM_PATH_HERE".toList

/-- `asObj v` is `v`'s field list when `v` is a JSON object; `none` models
the exception Python raises when a non-dict value reaches a dict
operation (`{**v}`, `v.get`, `v.setdefault`). -/
def asObj : JVal → Option Dict
  | .obj fields => some fields
  | _ => none

/-- `asArr v` is `v`'s element list when `v` is a JSON array; `none` models
the exception Python raises when a non-list value reaches `v[-1] = x` /
`v.append(x)` in `_set_filesystem_path`.  (A Python dict would instead
accept the integer key `-1`; that corner falls outside this string-keyed
JSON object model.) -/
def asArr : JVal → Option (List JVal)
  | .arr elems => some elems
  | _ => none

/-- The document-merge slice of `_merge_mcp_servers` (cli.py lines 151-155):
`existing_servers = existing.get("mcpServers", {})`,
`new_servers = mcp_data.get("mcpServers", {})`,
`merged = {**existing, "mcpServers": _deep_merge(existing_servers, new_servers)}`. -/
def mergeMcpServers (existing mcpData : Dict) : Option Dict := do
  let es ← asObj (getD existing kMcpServers (JVal.obj []))
  let ns ← asObj (getD mcpData kMcpServers (JVal.obj []))
  return setKey existing kMcpServers (JVal.obj (deepMerge es ns))

/-- C2: the MCP merge step writes a shallow copy of the existing document
in which only `mcpServers` is replaced by
`_deep_merge(existing.mcpServers or {}, new.mcpServers or {})`; every other
top-level key keeps its existing value, so no top-level key is discarded. -/
theorem merge_mcp_servers_spec (existing mcpData es ns : Dict)
    (he : getD existing kMcpServers (JVal.obj []) = JVal.obj es)
    (hn : getD mcpData kMcpServers (JVal.obj []) = JVal.obj ns) :
    mergeMcpServers existing mcpData
        = some (setKey existing kMcpServers (JVal.obj (deepMerge es ns))) ∧
    lookupA (setKey existing kMcpServers (JVal.obj (deepMerge es ns))) kMcpServers
        = some (JVal.obj (deepMerge es ns)) ∧
    ∀ k : Str, k ≠ kMcpServers →
      lookupA (setKey existing kMcpServers (JVal.obj (deepMerge es ns))) k
        = lookupA existing k := by
  refine ⟨?_, ?_, ?_⟩
  · simp [mergeMcpServers, he, hn, asObj]
  · rw [lookupA_setKey]; simp
  · intro k hk
    rw [lookupA_setKey, if_neg (fun h => hk h.symm)]

/-- Witness for C2: a document with a custom server and an unrelated
top-level key, merged with a source document defining two servers. -/
theorem merge_mcp_servers_spec_witness :
    getD [(['t'], JVal.str ['k']),
          (kMcpServers, JVal.obj [(['c'], JVal.obj [])])] kMcpServers (JVal.obj [])
        = JVal.obj [(['c'], JVal.obj [])] ∧
    getD [(kMcpServers, JVal.obj [(['g'], JVal.obj []), (['f'], JVal.obj [])])]
        kMcpServers (JVal.obj [])
        = JVal.obj [(['g'], JVal.obj []), (['f'], JVal.obj [])] ∧
    mergeMcpServers
        [(['t'], JVal.str ['k']), (kMcpServers, JVal.obj [(['c'], JVal.obj [])])]
        [(kMcpServers, JVal.obj [(['g'], JVal.obj []), (['f'], JVal.obj [])])]
      = some (setKey
          [(['t'], JVal.str ['k']), (kMcpServers, JVal.obj [(['c'], JVal.obj [])])]
          kMcpServers
          (JVal.obj (deepMerge [(['c'], JVal.obj [])]
            [(['g'], JVal.obj []), (['f'], JVal.obj [])]))) :=
  ⟨by rfl, by rfl,
    (merge_mcp_servers_spec _ _ _ _ (by rfl) (by rfl)).1⟩

/-! ## `_set_filesystem_path` -/

/-- `_set_filesystem_path(claude_json_path, path_value)` acting on the parsed
document (the function re-reads the file, edits, and rewrites; file I/O is
factored out): `fs_config = data.get("mcpServers", {}).get("filesystem", {})`,
`args = fs_config.get("args", [])`; replace the last element of a non-empty
`args` by the value, or append it to an empty `args`; then
`data.setdefault("mcpServers", {}).setdefault("filesystem", {})["args"] = args`,
which (by Python aliasing) sets exactly the nested `args` entry, keeping all
sibling keys.  `none` models the exception raised when an intermediate value
is not a dict or `args` is not a list. -/
def setFilesystemPath (data : Dict) (pathValue : Str) : Option Dict := do
  let ms ← asObj (getD data kMcpServers (JVal.obj []))
  let fs ← asObj (getD ms kFilesystem (JVal.obj []))
  let args ← asArr (getD fs kArgs (JVal.arr []))
  let args2 := if args.isEmpty then [JVal.str pathValue]
               else args.dropLast ++ [JVal.str pathValue]
  return setKey data kMcpServers (JVal.obj (setKey ms kFilesystem
    (JVal.obj (setKey fs kArgs (JVal.arr args2)))))

/-- Reads `doc.mcpServers.filesystem.args` as a list, when that nested
structure exists. -/
def fsArgsOf (d : Dict) : Option (List JVal) := do
  let ms ← asObj (← lookupA d kMcpServers)
  let fs ← asObj (← lookupA ms kFilesystem)
  asArr (← lookupA fs kArgs)

/-- After a successful `_set_filesystem_path`, the nested `args` list exists
and is the original list with its last element replaced (or the sole new
element). -/
theorem fsArgsOf_setFilesystemPath (data ms fs : Dict) (args : List JVal) (v : Str)
    (hms : getD data kMcpServers (JVal.obj []) = JVal.obj ms)
    (hfs : getD ms kFilesystem (JVal.obj []) = JVal.obj fs)
    (hargs : getD fs kArgs (JVal.arr []) = JVal.arr args) :
    setFilesystemPath data v
      = some (setKey data kMcpServers (JVal.obj (setKey ms kFilesystem
          (JVal.obj (setKey fs kArgs (JVal.arr
            (if args.isEmpty then [JVal.str v]
             else args.dropLast ++ [JVal.str v]))))))) ∧
    ∀ d : Dict, setFilesystemPath data v = some d →
      fsArgsOf d = some (if args.isEmpty then [JVal.str v]
                         else args.dropLast ++ [JVal.str v]) := by
  have hrun : setFilesystemPath data v
      = some (setKey data kMcpServers (JVal.obj (setKey ms kFilesystem
          (JVal.obj (setKey fs kArgs (JVal.arr
            (if args.isEmpty then [JVal.str v]
             else args.dropLast ++ [JVal.str v]))))))) := by
    simp [setFilesystemPath, hms, hfs, hargs, asObj, asArr]
  refine ⟨hrun, ?_⟩
  intro d hd
  rw [hrun] at hd
  cases hd
  simp [fsArgsOf, lookupA_setKey, asObj, asArr]

/-- C9: `_set_filesystem_path` ensures `mcpServers.filesystem.args` exists;
a non-empty pre-existing `args` list has its last element replaced by the
value, an empty or absent one ends up holding the value as sole element. -/
theorem set_filesystem_path_spec (data ms fs : Dict) (args : List JVal) (v : Str)
    (hms : getD data kMcpServers (JVal.obj []) = JVal.obj ms)
    (hfs : getD ms kFilesystem (JVal.obj []) = JVal.obj fs)
    (hargs : getD fs kArgs (JVal.arr []) = JVal.arr args) :
    ∃ d : Dict, setFilesystemPath data v = some d ∧
      fsArgsOf d = some (if args.isEmpty then [JVal.str v]
                         else args.dropLast ++ [JVal.str v]) := by
  obtain ⟨hrun, hread⟩ := fsArgsOf_setFilesystemPath data ms fs args v hms hfs hargs
  exact ⟨_, hrun, hread _ hrun⟩

/-- Witness for C9 on a document whose `args` already ends in a placeholder:
the last element is replaced, the other args survive. -/
theorem set_filesystem_path_spec_witness :
    getD [(kMcpServers, JVal.obj [(kFilesystem,
        JVal.obj [(kArgs, JVal.arr [JVal.str ['-','y'], JVal.str ['P']])])])]
        kMcpServers (JVal.obj [])
      = JVal.obj [(kFilesystem,
          JVal.obj [(kArgs, JVal.arr [JVal.str ['-','y'], JVal.str ['P']])])] ∧
    ∃ d : Dict,
      setFilesystemPath
          [(kMcpServers, JVal.obj [(kFilesystem,
            JVal.obj [(kArgs, JVal.arr [JVal.str ['-','y'], JVal.str ['P']])])])]
          ['/','t','m','p']
        = some d ∧
      fsArgsOf d = some (if ([JVal.str ['-','y'], JVal.str ['P']] : List JVal).isEmpty
                         then [JVal.str ['/','t','m','p']]
                         else [JVal.str ['-','y'], JVal.str ['P']].dropLast
                              ++ [JVal.str ['/','t','m','p']]) :=
  ⟨by rfl,
    set_filesystem_path_spec _ _ _ _ ['/','t','m','p'] (by rfl) (by rfl) (by rfl)⟩

/-! ## The directory linker (`_link_directories`) -/

/-- `LINK_DIRS` from cli.py. -/
def LINK_DIRS : List Str :=
  ["agents".toList, "commands".toList, "contexts".toList,
   "plugins".toList, "rules".toList, "skills".toList]

/-- An entry in the destination directory; `α` is an abstract type of
directory/file contents. -/
inductive FsEntry (α : Type) where
  | symlinkTo (target : Str)
  | dir (content : α)
  | file (content : α)

/-- `dest_path.with_suffix(".bak")` for the dot-free `LINK_DIRS` names. -/
def bakNameOf (n : Str) : Str := n ++ ".bak".toList

/-- The destination directory, as a map from entry name to entry. -/
def Store (α : Type) := Str → Option (FsEntry α)

theorem bakNameOf_ne (n : Str) : bakNameOf n ≠ n := by
  intro h
  have hl := congrArg List.length h
  rw [bakNameOf, List.length_append] at hl
  have h4 : (".bak".toList).length = 4 := rfl
  omega

/-- One iteration of the `_link_directories` loop (cli.py lines 85-103)
for `name`: skip when the source subdirectory is missing; remove an
existing destination symlink unconditionally (no backup); rename an
existing real directory to `<name>.bak`, first removing a pre-existing
`.bak` directory with `shutil.rmtree`; then symlink the destination name
to the source subdirectory.  `none` models an uncaught `OSError`
(`symlink_to` over an existing regular file, `rmtree` of a `.bak` that is
not a real directory, or renaming onto a leftover `.bak` symlink). -/
def linkOneName (α : Type) (srcHasDir : Str → Bool) (srcPath : Str → Str)
    (st : Store α) (name : Str) : Option (Store α) :=
  if srcHasDir name = false then some st
  else
    match st name with
    | some (.symlinkTo _) =>
        some (Function.update st name (some (.symlinkTo (srcPath name))))
    | some (.dir d) =>
        match st (bakNameOf name) with
        | none =>
            some (Function.update
              (Function.update st (bakNameOf name) (some (.dir d)))
              name (some (.symlinkTo (srcPath name))))
        | some (.dir _) =>
            some (Function.update
              (Function.update st (bakNameOf name) (some (.dir d)))
              name (some (.symlinkTo (srcPath name))))
        | some _ => none
    | some (.file _) => none
    | none =>
        some (Function.update st name (some (.symlinkTo (srcPath name))))

/-- `_link_directories(src, dest)`: the loop over `LINK_DIRS`. -/
def linkDirectories (α : Type) (srcHasDir : Str → Bool) (srcPath : Str → Str)
    (st : Store α) : Option (Store α) :=
  LINK_DIRS.foldlM (linkOneName α srcHasDir srcPath) st

/-- C5: for a `LINK_DIRS` name whose source subdirectory exists, the link
step leaves the destination name a symlink to the source subdirectory; a
prior symlink is removed with no backup (the `.bak` entry is untouched); a
prior real directory survives as `<name>.bak`, destroying any pre-existing
`.bak` (last backup wins). -/
theorem link_directories_step_spec (α : Type) (srcHasDir : Str → Bool)
    (srcPath : Str → Str) (st : Store α) (name : Str)
    (_hmem : name ∈ LINK_DIRS) (hsrc : srcHasDir name = true)
    (hbak : st (bakNameOf name) = none ∨
            ∃ d, st (bakNameOf name) = some (.dir d))
    (hentry : st name = none ∨ (∃ t, st name = some (.symlinkTo t)) ∨
              ∃ d, st name = some (.dir d)) :
    ∃ st2 : Store α, linkOneName α srcHasDir srcPath st name = some st2 ∧
      st2 name = some (.symlinkTo (srcPath name)) ∧
      (∀ t, st name = some (.symlinkTo t) →
          st2 (bakNameOf name) = st (bakNameOf name)) ∧
      (st name = none → st2 (bakNameOf name) = st (bakNameOf name)) ∧
      (∀ d, st name = some (.dir d) →
          st2 (bakNameOf name) = some (.dir d)) := by
  have hne : bakNameOf name ≠ name := bakNameOf_ne name
  rcases hentry with h0 | ⟨t, h0⟩ | ⟨d, h0⟩
  · refine ⟨_, by rw [linkOneName, if_neg (by simp [hsrc]), h0], ?_, ?_, ?_, ?_⟩
    · simp [Function.update]
    · intro t ht; rw [h0] at ht; cases ht
    · intro _; simp [Function.update, hne]
    · intro d hd; rw [h0] at hd; cases hd
  · refine ⟨_, by rw [linkOneName, if_neg (by simp [hsrc]), h0], ?_, ?_, ?_, ?_⟩
    · simp [Function.update]
    · intro t' _; simp [Function.update, hne]
    · intro h; rw [h0] at h; cases h
    · intro d hd; rw [h0] at hd; simp at hd
  · rcases hbak with hb | ⟨db, hb⟩
    · refine ⟨_, by rw [linkOneName, if_neg (by simp [hsrc]), h0, hb], ?_, ?_, ?_, ?_⟩
      · simp [Function.update]
      · intro t ht; rw [h0] at ht; cases ht
      · intro h; rw [h0] at h; cases h
      · intro d' hd'
        rw [h0] at hd'
        cases hd'
        simp [Function.update, hne]
    · refine ⟨_, by rw [linkOneName, if_neg (by simp [hsrc]), h0, hb], ?_, ?_, ?_, ?_⟩
      · simp [Function.update]
      · intro t ht; rw [h0] at ht; cases ht
      · intro h; rw [h0] at h; cases h
      · intro d' hd'
        rw [h0] at hd'
        cases hd'
        simp [Function.update, hne]

/-- Witness for C5: destination holds a real `agents` directory and a stale
`agents.bak`; after the step `agents` is the new symlink and `agents.bak`
holds the old directory content. -/
theorem link_directories_step_spec_witness :
    ∃ st2 : Store Nat,
      linkOneName Nat (fun _ => true) (fun n => 's' :: n)
          (fun n => if n = "agents".toList then some (.dir 0)
                    else if n = bakNameOf "agents".toList then some (.dir 1)
                    else none)
          "agents".toList
        = some st2 ∧
      st2 "agents".toList = some (.symlinkTo ('s' :: "agents".toList)) ∧
      (∀ t, (if "agents".toList = "agents".toList then some (FsEntry.dir 0)
             else if "agents".toList = bakNameOf "agents".toList then some (.dir 1)
             else none) = some (FsEntry.symlinkTo t) →
          st2 (bakNameOf "agents".toList)
            = (if bakNameOf "agents".toList = "agents".toList then some (FsEntry.dir 0)
               else if bakNameOf "agents".toList = bakNameOf "agents".toList
               then some (.dir 1) else none)) ∧
      ((if "agents".toList = "agents".toList then some (FsEntry.dir 0)
        else if "agents".toList = bakNameOf "agents".toList then some (.dir 1)
        else none) = none →
          st2 (bakNameOf "agents".toList)
            = (if bakNameOf "agents".toList = "agents".toList then some (FsEntry.dir 0)
               else if bakNameOf "agents".toList = bakNameOf "agents".toList
               then some (.dir 1) else none)) ∧
      (∀ d, (if "agents".toList = "agents".toList then some (FsEntry.dir 0)
             else if "agents".toList = bakNameOf "agents".toList then some (.dir 1)
             else none) = some (FsEntry.dir d) →
          st2 (bakNameOf "agents".toList) = some (.dir d)) :=
  link_directories_step_spec Nat (fun _ => true) (fun n => 's' :: n)
    (fun n => if n = "agents".toList then some (.dir 0)
              else if n = bakNameOf "agents".toList then some (.dir 1)
              else none)
    "agents".toList
    (by decide)
    rfl
    (Or.inr ⟨1, by rfl⟩)
    (Or.inr (Or.inr ⟨0, by rfl⟩))

/-! ## Filesystem-path reconciliation (`_handle_filesystem_path`) -/

/-- The filesystem facts `_handle_filesystem_path` consults:
`resolvePath s` models `str(Path(s).expanduser().resolve())`, and
`isDir s` models `Path(s).is_dir()`. -/
structure PathEnv where
  resolvePath : Str → Str
  isDir : Str → Bool

/-- Python truthiness of a JSON value. -/
def pyTruthy : JVal → Bool
  | .null => false
  | .bool b => b
  | .num n => decide (n ≠ 0)
  | .str s => !s.isEmpty
  | .arr elems => !elems.isEmpty
  | .obj fields => !fields.isEmpty

/-- `v[-1]`: last element of a list, last character of a string; `none`
models the exception raised on any other type. -/
def pyLastItem : JVal → Option JVal
  | .arr elems => elems.getLast?
  | .str s => s.getLast?.map (fun c => JVal.str [c])
  | _ => none

/-- Lines 202-209 of cli.py: the previously configured filesystem path in
the parsed backup document, i.e. `args[-1]` of
`bak.mcpServers.filesystem.args` when `args` is truthy.  Outer `none`
models an exception (`.get` reached a non-dict, or `args[-1]` on a truthy
non-indexable value); inner `none` is Python's `existing_fs_path is None`. -/
def extractBakFsPath (bak : JVal) : Option (Option JVal) := do
  let bd ← asObj bak
  let ms ← asObj (getD bd kMcpServers (JVal.obj []))
  let fs ← asObj (getD ms kFilesystem (JVal.obj []))
  let args := getD fs kArgs (JVal.arr [])
  if pyTruthy args then
    match pyLastItem args with
    | some x => some (some x)
    | none => none
  else
    some none

/-- Outcome of `_handle_filesystem_path`: the final parsed document,
whether the interactive prompt ran, whether the prior path was restored
from the backup, and whether a warning was printed. -/
structure HandleResult where
  doc : Dict
  prompted : Bool
  restored : Bool
  warned : Bool

/-- Lines 242-262 of cli.py: skip the prompt under `--no-prompt`,
otherwise prompt; a non-empty reply is resolved and, when a real
directory, stored via `_set_filesystem_path`, else warned about. -/
def promptPhase (env : PathEnv) (doc : Dict) (noPrompt : Bool)
    (promptInput : Str) (warnedStale : Bool) : Option HandleResult :=
  if noPrompt then some ⟨doc, false, false, warnedStale⟩
  else if promptInput ≠ [] then
    let r := env.resolvePath promptInput
    if env.isDir r then
      (setFilesystemPath doc r).map (fun d => ⟨d, true, false, warnedStale⟩)
    else some ⟨doc, true, false, true⟩
  else some ⟨doc, true, false, warnedStale⟩

/-- `_handle_filesystem_path(claude_json_path, bak_path, fs_path, no_prompt)`:
`doc` is the parsed content of the just-merged claude.json, `bakDoc` the
parsed backup document (`none`: no backup file exists), `fsPath` the
`--fs-path` flag value, `promptInput` the operator's reply when prompted
(empty = pressed Enter).  Priority: an explicit truthy flag; else restore
a truthy, non-placeholder, still-existing path found in the backup; else
warn about a stale one and fall through to the prompt phase. -/
def handleFilesystemPath (env : PathEnv) (doc : Dict) (bakDoc : Option JVal)
    (fsPath : Option Str) (noPrompt : Bool) (promptInput : Str) :
    Option HandleResult := do
  let existingFsPath : Option JVal ←
    match bakDoc with
    | none => some none
    | some b => extractBakFsPath b
  if fsPath.getD [] ≠ [] then
    let r := env.resolvePath (fsPath.getD [])
    if env.isDir r then
      (setFilesystemPath doc r).map (fun d => ⟨d, false, false, false⟩)
    else
      some ⟨doc, false, false, true⟩
  else
    match existingFsPath with
    | some (JVal.str s) =>
        if s ≠ [] ∧ s ≠ fsPathPlaceholder then
          if env.isDir s then
            (setFilesystemPath doc s).map (fun d => ⟨d, false, true, false⟩)
          else
            promptPhase env doc noPrompt promptInput true
        else promptPhase env doc noPrompt promptInput false
    | some e =>
        if pyTruthy e then none
        else promptPhase env doc noPrompt promptInput false
    | none => promptPhase env doc noPrompt promptInput false

theorem getLast?_snoc (l : List JVal) (a : JVal) : (l ++ [a]).getLast? = some a := by
  induction l with
  | nil => rfl
  | cons x xs ih =>
      cases xs with
      | nil => rfl
      | cons y ys => exact ih

/-- C4: with an explicit (truthy) `--fs-path` flag, the flag branch decides
everything: a resolved existing directory is written into the document,
otherwise a warning is emitted and the document is untouched; in both
cases neither the backup-restoration branch nor the interactive prompt
runs, whatever the backup holds. -/
theorem handle_fs_path_flag_spec (env : PathEnv) (doc : Dict)
    (bakDoc : Option JVal) (p : Str) (noPrompt : Bool) (promptInput : Str)
    (hp : p ≠ [])
    (hbak : bakDoc = none ∨
            ∃ b e, bakDoc = some b ∧ extractBakFsPath b = some e) :
    (env.isDir (env.resolvePath p) = true →
      handleFilesystemPath env doc bakDoc (some p) noPrompt promptInput
        = (setFilesystemPath doc (env.resolvePath p)).map
            (fun d => ⟨d, false, false, false⟩)) ∧
    (env.isDir (env.resolvePath p) = false →
      handleFilesystemPath env doc bakDoc (some p) noPrompt promptInput
        = some ⟨doc, false, false, true⟩) := by
  constructor <;> intro hdir <;>
    rcases hbak with hb | ⟨b, e, hb, hex⟩ <;> subst hb <;>
      simp [handleFilesystemPath, hp, hdir, *]

/-- Witness for C4 with a backup that holds a valid prior path: the flag
still wins, and neither restoration nor the prompt runs. -/
theorem handle_fs_path_flag_spec_witness :
    handleFilesystemPath ⟨fun s => s, fun s => s == ['/','n','e','w']⟩ []
        (some (JVal.obj [(kMcpServers, JVal.obj [(kFilesystem,
          JVal.obj [(kArgs, JVal.arr [JVal.str ['/','o','l','d']])])])]))
        (some ['/','n','e','w']) true []
      = (setFilesystemPath [] ['/','n','e','w']).map
          (fun d => ⟨d, false, false, false⟩) :=
  (handle_fs_path_flag_spec ⟨fun s => s, fun s => s == ['/','n','e','w']⟩ []
    (some (JVal.obj [(kMcpServers, JVal.obj [(kFilesystem,
      JVal.obj [(kArgs, JVal.arr [JVal.str ['/','o','l','d']])])])]))
    ['/','n','e','w'] true []
    (by decide)
    (Or.inr ⟨_, some (JVal.str ['/','o','l','d']), rfl, by rfl⟩)).1 (by decide)

/-- C3: with no (truthy) `--fs-path` flag, when the backup document's
`mcpServers.filesystem.args` ends in a non-placeholder path that is an
existing directory, the run restores that path: the final document's last
`args` element equals the prior path. -/
theorem handle_fs_path_restore_spec (env : PathEnv) (doc ms fs : Dict)
    (args : List JVal) (b : JVal) (s : Str) (fsPath : Option Str)
    (noPrompt : Bool) (promptInput : Str)
    (hflag : fsPath = none ∨ fsPath = some [])
    (hex : extractBakFsPath b = some (some (JVal.str s)))
    (hs0 : s ≠ []) (hs1 : s ≠ fsPathPlaceholder)
    (hdir : env.isDir s = true)
    (hms : getD doc kMcpServers (JVal.obj []) = JVal.obj ms)
    (hfs : getD ms kFilesystem (JVal.obj []) = JVal.obj fs)
    (hargs : getD fs kArgs (JVal.arr []) = JVal.arr args) :
    ∃ d : Dict,
      handleFilesystemPath env doc (some b) fsPath noPrompt promptInput
          = some ⟨d, false, true, false⟩ ∧
      ∃ finalArgs : List JVal,
        fsArgsOf d = some finalArgs ∧ finalArgs.getLast? = some (JVal.str s) := by
  obtain ⟨hrun, hread⟩ := fsArgsOf_setFilesystemPath doc ms fs args s hms hfs hargs
  have hfp : fsPath.getD [] = [] := by rcases hflag with h | h <;> simp [h]
  refine ⟨setKey doc kMcpServers (JVal.obj (setKey ms kFilesystem
      (JVal.obj (setKey fs kArgs (JVal.arr
        (if args.isEmpty then [JVal.str s]
         else args.dropLast ++ [JVal.str s])))))), ?_, ?_⟩
  · simp [handleFilesystemPath, hex, hfp, hs0, hs1, hdir, hrun]
  · refine ⟨_, hread _ hrun, ?_⟩
    split
    · rfl
    · exact getLast?_snoc _ _

/-- Witness for C3: a backup whose `args` ends in `/old` (an existing
directory), no flag, non-interactive; the final document's last `args`
element is `/old`, not the placeholder the merge wrote there. -/
theorem handle_fs_path_restore_spec_witness :
    ∃ d : Dict,
      handleFilesystemPath ⟨fun s => s, fun s => s = ['/','o','l','d']⟩
          [(kMcpServers, JVal.obj [(kFilesystem,
            JVal.obj [(kArgs, JVal.arr [JVal.str fsPathPlaceholder])])])]
          (some (JVal.obj [(kMcpServers, JVal.obj [(kFilesystem,
            JVal.obj [(kArgs, JVal.arr [JVal.str ['/','o','l','d']])])])]))
          none true []
          = some ⟨d, false, true, false⟩ ∧
      ∃ finalArgs : List JVal,
        fsArgsOf d = some finalArgs ∧
        finalArgs.getLast? = some (JVal.str ['/','o','l','d']) :=
  handle_fs_path_restore_spec ⟨fun s => s, fun s => s = ['/','o','l','d']⟩
    [(kMcpServers, JVal.obj [(kFilesystem,
      JVal.obj [(kArgs, JVal.arr [JVal.str fsPathPlaceholder])])])]
    [(kFilesystem, JVal.obj [(kArgs, JVal.arr [JVal.str fsPathPlaceholder])])]
    [(kArgs, JVal.arr [JVal.str fsPathPlaceholder])]
    [JVal.str fsPathPlaceholder]
    (JVal.obj [(kMcpServers, JVal.obj [(kFilesystem,
      JVal.obj [(kArgs, JVal.arr [JVal.str ['/','o','l','d']])])])])
    ['/','o','l','d'] none true []
    (Or.inl rfl)
    (by rfl)
    (by decide)
    (by decide)
    rfl
    (by rfl)
    (by rfl)
    (by rfl)

/-! ## JSON store: text utilities -/

/-- Characters stripped by Python's `str.strip()` (the ASCII/Latin-1
whitespace set; whitespace code points above U+00FF are outside the
model). -/
def pyIsSpace (c : Char) : Bool :=
  decide (c = ' ' ∨ c = '\t' ∨ c = '\n' ∨ c = '\r' ∨ c = '\x0b' ∨
    c = '\x0c' ∨ c = '\x1c' ∨ c = '\x1d' ∨ c = '\x1e' ∨ c = '\x1f' ∨
    c = '\x85' ∨ c = '\xa0')

/-- `text.strip()`. -/
def strip (s : Str) : Str :=
  ((s.dropWhile pyIsSpace).reverse.dropWhile pyIsSpace).reverse

/-- JSON inter-token whitespace, as skipped by `json.loads`. -/
def jsonWs (c : Char) : Bool :=
  decide (c = ' ' ∨ c = '\t' ∨ c = '\n' ∨ c = '\r')

def skipWs (cs : List Char) : List Char := cs.dropWhile jsonWs

/-! ## Decimal numerals (`json.dumps` / `json.loads` for Python ints) -/

/-- The character for decimal digit `d`. -/
def digitChar (d : Nat) : Char := Char.ofNat (48 + d)

/-- Digit-accumulating loop for the decimal numeral, with explicit fuel
(`n` itself is always enough). -/
def natToDigitsAux : Nat → Nat → List Char → List Char
  | 0, _, acc => acc
  | fuel + 1, n, acc =>
      if n = 0 then acc
      else natToDigitsAux fuel (n / 10) (digitChar (n % 10) :: acc)

/-- Decimal numeral of `n`, most significant digit first, as emitted by
`json.dumps` for non-negative Python ints. -/
def natToDigits (n : Nat) : List Char :=
  if n = 0 then ['0'] else natToDigitsAux n n []

/-- Decimal numeral of a Python int. -/
def intToChars : Int → List Char
  | .ofNat n => natToDigits n
  | .negSucc n => '-' :: natToDigits (n + 1)

def isDigitChar (c : Char) : Bool := 48 ≤ c.toNat && c.toNat ≤ 57

def digitsToNat (ds : List Char) : Nat :=
  ds.foldl (fun a c => 10 * a + (c.toNat - 48)) 0

/-- Integer-numeral parsing as in the JSON grammar (`0` or a nonzero first
digit; a maximal digit run).  Fraction/exponent parts (floats) are outside
the model: texts containing them fail to parse here, while Python would
produce a float. -/
def parseNum (cs : List Char) : Option (Nat × List Char) :=
  match cs.takeWhile isDigitChar with
  | [] => none
  | d :: more =>
      if d = '0' ∧ more ≠ [] then none
      else some (digitsToNat (d :: more), cs.dropWhile isDigitChar)

/-! ### Numeral lemmas -/

theorem natToDigitsAux_eq (fuel : Nat) :
    ∀ (n : Nat) (acc : List Char), n ≤ fuel →
    natToDigitsAux fuel n acc = ((Nat.digits 10 n).map digitChar).reverse ++ acc := by
  induction fuel with
  | zero =>
      intro n acc h
      interval_cases n
      simp [natToDigitsAux]
  | succ fuel ih =>
      intro n acc h
      by_cases h0 : n = 0
      · subst h0; simp [natToDigitsAux]
      · rw [natToDigitsAux, if_neg h0,
          ih (n / 10) _ (by
            have := Nat.div_lt_self (Nat.pos_of_ne_zero h0) (by norm_num : 1 < 10)
            omega),
          Nat.digits_def' (by norm_num : 1 < 10) (Nat.pos_of_ne_zero h0)]
        simp

theorem natToDigits_eq (n : Nat) :
    natToDigits n
      = if n = 0 then ['0'] else ((Nat.digits 10 n).map digitChar).reverse := by
  by_cases h : n = 0 <;>
    simp [natToDigits, h, natToDigitsAux_eq n n [] le_rfl]

theorem digitChar_isDigit (d : Nat) (h : d < 10) : isDigitChar (digitChar d) = true := by
  interval_cases d <;> decide

theorem digitChar_toNat (d : Nat) (h : d < 10) : (digitChar d).toNat = 48 + d := by
  interval_cases d <;> decide

theorem digitChar_ne_zero_char (d : Nat) (h1 : d < 10) (h2 : d ≠ 0) :
    digitChar d ≠ '0' := by
  interval_cases d
  · exact absurd rfl h2
  all_goals decide

theorem natToDigits_all_digits (n : Nat) :
    ∀ c ∈ natToDigits n, isDigitChar c = true := by
  rw [natToDigits_eq]
  split
  · intro c hc
    simp at hc
    subst hc
    decide
  · intro c hc
    rw [List.mem_reverse, List.mem_map] at hc
    obtain ⟨d, hd, rfl⟩ := hc
    exact digitChar_isDigit d (Nat.digits_lt_base (by norm_num) hd)

theorem natToDigits_ne_nil (n : Nat) : natToDigits n ≠ [] := by
  rw [natToDigits_eq]
  split
  · simp
  · simp [Nat.digits_ne_nil_iff_ne_zero, *]

theorem natToDigits_no_leading_zero (n : Nat) (d : Char) (more : List Char)
    (h : natToDigits n = d :: more) (h0 : d = '0') : more = [] := by
  rw [natToDigits_eq] at h
  split at h
  · injection h with h1 h2
    exact h2.symm
  · exfalso
    rename_i hn
    rw [← List.map_reverse] at h
    cases hrev : (Nat.digits 10 n).reverse with
    | nil =>
        rw [hrev] at h
        exact List.noConfusion h
    | cons e es =>
        rw [hrev, List.map_cons] at h
        injection h with h1 _
        have he10 : e < 10 := by
          have hmem : e ∈ Nat.digits 10 n := by
            rw [← List.mem_reverse, hrev]
            exact List.mem_cons_self e es
          exact Nat.digits_lt_base (by norm_num) hmem
        have hne : Nat.digits 10 n ≠ [] := by
          rw [Nat.digits_ne_nil_iff_ne_zero]
          exact hn
        have hlast : (Nat.digits 10 n).getLast? = some e := by
          rw [← List.head?_reverse, hrev]
          rfl
        have he0 : e ≠ 0 := by
          have hgl := Nat.getLast_digit_ne_zero 10 hn
          rw [List.getLast?_eq_getLast _ hne] at hlast
          injection hlast with hlast
          rw [hlast] at hgl
          exact hgl
        exact digitChar_ne_zero_char e he10 he0 (h1 ▸ h0 ▸ rfl)

theorem foldl_digitChars (l : List Nat) :
    ∀ acc : Nat, (∀ d ∈ l, d < 10) →
    ((l.map digitChar).reverse).foldl (fun a c => 10 * a + (c.toNat - 48)) acc
      = acc * 10 ^ l.length + Nat.ofDigits 10 l := by
  induction l with
  | nil =>
      intro acc _
      simp [Nat.ofDigits_nil]
  | cons d t ih =>
      intro acc hall
      have hd : d < 10 := hall d (List.mem_cons_self d t)
      rw [List.map_cons, List.reverse_cons, List.foldl_append,
        ih acc (fun e he => hall e (List.mem_cons_of_mem d he)),
        List.foldl_cons, List.foldl_nil, digitChar_toNat d hd,
        Nat.ofDigits_cons, List.length_cons]
      ring_nf
      omega

theorem digitsToNat_natToDigits (n : Nat) : digitsToNat (natToDigits n) = n := by
  rw [natToDigits_eq]
  split
  · rename_i h; rw [h]; rfl
  · rw [digitsToNat,
      foldl_digitChars _ 0 (fun d hd => Nat.digits_lt_base (by norm_num) hd)]
    simp [Nat.ofDigits_digits]

/-! ### takeWhile/dropWhile helpers -/

theorem takeWhile_append_all {α : Type} {p : α → Bool} :
    ∀ {l : List α} (r : List α), (∀ c ∈ l, p c = true) →
    (l ++ r).takeWhile p = l ++ r.takeWhile p
  | [], r, _ => rfl
  | a :: l, r, h => by
      have ha : p a = true := h a (List.mem_cons_self a l)
      simp only [List.cons_append, List.takeWhile_cons, ha, if_true]
      rw [takeWhile_append_all r (fun c hc => h c (List.mem_cons_of_mem a hc))]

theorem dropWhile_append_all {α : Type} {p : α → Bool} :
    ∀ {l : List α} (r : List α), (∀ c ∈ l, p c = true) →
    (l ++ r).dropWhile p = r.dropWhile p
  | [], r, _ => rfl
  | a :: l, r, h => by
      have ha : p a = true := h a (List.mem_cons_self a l)
      simp only [List.cons_append, List.dropWhile_cons, ha, if_true]
      exact dropWhile_append_all r (fun c hc => h c (List.mem_cons_of_mem a hc))

/-- The continuation after a serialized number must not begin with a
digit (inside dumps output it is a newline, a comma, a bracket, or
nothing). -/
def headNotDigit : List Char → Bool
  | [] => true
  | c :: _ => !isDigitChar c

theorem parseNum_natToDigits (n : Nat) (rest : List Char)
    (hrest : headNotDigit rest = true) :
    parseNum (natToDigits n ++ rest) = some (n, rest) := by
  have hall := natToDigits_all_digits n
  have hrt : rest.takeWhile isDigitChar = [] := by
    cases rest with
    | nil => rfl
    | cons c t =>
        rw [headNotDigit, Bool.not_eq_true'] at hrest
        simp [List.takeWhile_cons, hrest]
  have hrd : rest.dropWhile isDigitChar = rest := by
    cases rest with
    | nil => rfl
    | cons c t =>
        rw [headNotDigit, Bool.not_eq_true'] at hrest
        simp [List.dropWhile_cons, hrest]
  have htake : (natToDigits n ++ rest).takeWhile isDigitChar = natToDigits n := by
    rw [takeWhile_append_all rest hall, hrt, List.append_nil]
  have hdrop : (natToDigits n ++ rest).dropWhile isDigitChar = rest := by
    rw [dropWhile_append_all rest hall, hrd]
  obtain ⟨d, more, hd⟩ : ∃ d more, natToDigits n = d :: more := by
    cases hnd : natToDigits n with
    | nil => exact absurd hnd (natToDigits_ne_nil n)
    | cons d more => exact ⟨d, more, rfl⟩
  have hnolead : ¬(d = '0' ∧ more ≠ []) := fun ⟨h0, hm⟩ =>
    hm (natToDigits_no_leading_zero n d more hd h0)
  rw [parseNum, htake, hdrop, hd]
  show (if d = '0' ∧ more ≠ [] then none
        else some (digitsToNat (d :: more), rest)) = some (n, rest)
  rw [if_neg hnolead, ← hd, digitsToNat_natToDigits]

/-! ## JSON string escaping (`json.dumps`, default `ensure_ascii=True`) -/

/-- Lowercase hex digit, as Python's json emits. -/
def hexDigitChar (n : Nat) : Char :=
  if n < 10 then Char.ofNat (48 + n) else Char.ofNat (87 + n)

/-- The four hex digits of a code unit `n < 0x10000`. -/
def hexQuad (n : Nat) : List Char :=
  [hexDigitChar (n / 4096 % 16), hexDigitChar (n / 256 % 16),
   hexDigitChar (n / 16 % 16), hexDigitChar (n % 16)]

/-- `\uXXXX` escape of a code unit `n < 0x10000`. -/
def uEscape (n : Nat) : List Char := '\\' :: 'u' :: hexQuad n

/-- json.dumps encoding of one character: two-character escapes for the
JSON specials, printable ASCII literally, everything else as `\uXXXX`,
with a surrogate pair for code points above U+FFFF. -/
def encodeChar (c : Char) : List Char :=
  if c = '"' then ['\\', '"']
  else if c = '\\' then ['\\', '\\']
  else if c = '\n' then ['\\', 'n']
  else if c = '\r' then ['\\', 'r']
  else if c = '\t' then ['\\', 't']
  else if c = '\x08' then ['\\', 'b']
  else if c = '\x0c' then ['\\', 'f']
  else if 32 ≤ c.toNat ∧ c.toNat ≤ 126 then [c]
  else if c.toNat < 65536 then uEscape c.toNat
  else
    uEscape (55296 + (c.toNat - 65536) / 1024)
      ++ uEscape (56320 + (c.toNat - 65536) % 1024)

/-- The serialized JSON string literal for `s`. -/
def encodeStr (s : Str) : List Char := '"' :: (s.map encodeChar).flatten ++ ['"']

/-! ## JSON string parsing (`json.loads`, strict mode) -/

def hexVal (c : Char) : Option Nat :=
  if 48 ≤ c.toNat ∧ c.toNat ≤ 57 then some (c.toNat - 48)
  else if 97 ≤ c.toNat ∧ c.toNat ≤ 102 then some (c.toNat - 87)
  else if 65 ≤ c.toNat ∧ c.toNat ≤ 70 then some (c.toNat - 55)
  else none

def parse4Hex : List Char → Option (Nat × List Char)
  | c1 :: c2 :: c3 :: c4 :: rest => do
      let a ← hexVal c1
      let b ← hexVal c2
      let c ← hexVal c3
      let d ← hexVal c4
      return (((a * 16 + b) * 16 + c) * 16 + d, rest)
  | _ => none

/-- The two-character escapes accepted after a backslash. -/
def escChar : Char → Option Char
  | '"' => some '"'
  | '\\' => some '\\'
  | '/' => some '/'
  | 'b' => some '\x08'
  | 'f' => some '\x0c'
  | 'n' => some '\n'
  | 'r' => some '\r'
  | 't' => some '\t'
  | _ => none

/-- A `\uXXXX` escape payload (after the backslash and the `u`): four hex
digits; a high surrogate must be followed by a `\uXXXX` low surrogate and
the pair is recombined.  Python's json accepts lone surrogate escapes and
produces lone-surrogate strings; those are not representable as a Lean
`Char` and are rejected here. -/
def parseUEscape (cs : List Char) : Option (Char × List Char) :=
  match parse4Hex cs with
  | none => none
  | some (n, rest3) =>
      if 55296 ≤ n ∧ n ≤ 56319 then
        match rest3 with
        | a :: b :: rest4 =>
            if a = '\\' ∧ b = 'u' then
              match parse4Hex rest4 with
              | none => none
              | some (m, rest5) =>
                  if 56320 ≤ m ∧ m ≤ 57343 then
                    some (Char.ofNat (65536 + (n - 55296) * 1024 + (m - 56320)), rest5)
                  else none
            else none
        | _ => none
      else if 56320 ≤ n ∧ n ≤ 57343 then none
      else some (Char.ofNat n, rest3)

/-- Body of a JSON string literal (after the opening quote), with fuel
(the input length is always enough): literal characters up to the closing
quote, backslash escapes, `\uXXXX` escapes; raw control characters are
rejected (strict mode). -/
def parseStringBody : Nat → List Char → Option (Str × List Char)
  | 0, _ => none
  | _, [] => none
  | fuel + 1, c :: rest =>
      if c = '"' then some ([], rest)
      else if c = '\\' then
        match rest with
        | [] => none
        | e :: rest2 =>
            if e = 'u' then
              match parseUEscape rest2 with
              | none => none
              | some (c2, rest3) =>
                  (parseStringBody fuel rest3).map (fun sr => (c2 :: sr.1, sr.2))
            else
              match escChar e with
              | none => none
              | some c2 => (parseStringBody fuel rest2).map (fun sr => (c2 :: sr.1, sr.2))
      else if c.toNat < 32 then none
      else (parseStringBody fuel rest).map (fun sr => (c :: sr.1, sr.2))

/-- Parse a JSON string literal body, self-fuelled. -/
def parseJStr (cs : List Char) : Option (Str × List Char) :=
  parseStringBody (cs.length + 1) cs

/-! ### String escaping round-trip -/

theorem hexVal_hexDigitChar (n : Nat) (h : n < 16) :
    hexVal (hexDigitChar n) = some n := by
  interval_cases n <;> decide

theorem parse4Hex_hexQuad (n : Nat) (h : n < 65536) (rest : List Char) :
    parse4Hex (hexQuad n ++ rest) = some (n, rest) := by
  show parse4Hex (hexDigitChar (n / 4096 % 16) :: hexDigitChar (n / 256 % 16) ::
    hexDigitChar (n / 16 % 16) :: hexDigitChar (n % 16) :: rest) = some (n, rest)
  rw [parse4Hex, hexVal_hexDigitChar _ (Nat.mod_lt _ (by norm_num)),
    hexVal_hexDigitChar _ (Nat.mod_lt _ (by norm_num)),
    hexVal_hexDigitChar _ (Nat.mod_lt _ (by norm_num)),
    hexVal_hexDigitChar _ (Nat.mod_lt _ (by norm_num))]
  simp only [Option.bind_eq_bind, Option.some_bind]
  congr 2
  omega

theorem char_not_surrogate (c : Char) :
    c.toNat < 55296 ∨ (57344 ≤ c.toNat ∧ c.toNat < 1114112) := c.valid

theorem parseUEscape_bmp (n : Nat) (h : n < 65536)
    (hns : ¬(55296 ≤ n ∧ n ≤ 56319)) (hns2 : ¬(56320 ≤ n ∧ n ≤ 57343))
    (rest : List Char) :
    parseUEscape (hexQuad n ++ rest) = some (Char.ofNat n, rest) := by
  rw [parseUEscape, parse4Hex_hexQuad n h rest]
  simp [hns, hns2]

theorem parseUEscape_astral (hi lo : Nat)
    (hhi : 55296 ≤ hi ∧ hi ≤ 56319) (hlo : 56320 ≤ lo ∧ lo ≤ 57343)
    (rest : List Char) :
    parseUEscape (hexQuad hi ++ ('\\' :: 'u' :: (hexQuad lo ++ rest)))
      = some (Char.ofNat (65536 + (hi - 55296) * 1024 + (lo - 56320)), rest) := by
  rw [parseUEscape, parse4Hex_hexQuad hi (by omega) _]
  simp [hhi, hlo, parse4Hex_hexQuad lo (by omega) rest]

theorem parseStringBody_uescape (fuel : Nat) (cs : List Char) :
    parseStringBody (fuel + 1) ('\\' :: 'u' :: cs)
      = (parseUEscape cs).bind (fun cr =>
          (parseStringBody fuel cr.2).map (fun sr => (cr.1 :: sr.1, sr.2))) := by
  rw [parseStringBody.eq_def]
  simp
  cases parseUEscape cs with
  | none => rfl
  | some cr => rfl

/-- One encoded character parses back, consuming exactly one unit of fuel. -/
theorem parseStringBody_encodeChar (c : Char) (fuel : Nat) (tail : List Char) :
    parseStringBody (fuel + 1) (encodeChar c ++ tail)
      = (parseStringBody fuel tail).map (fun sr => (c :: sr.1, sr.2)) := by
  have hval := char_not_surrogate c
  by_cases h1 : c = '"'
  · subst h1; simp [encodeChar, parseStringBody, escChar]
  by_cases h2 : c = '\\'
  · subst h2; simp [encodeChar, parseStringBody, escChar]
  by_cases h3 : c = '\n'
  · subst h3; simp [encodeChar, parseStringBody, escChar]
  by_cases h4 : c = '\r'
  · subst h4; simp [encodeChar, parseStringBody, escChar]
  by_cases h5 : c = '\t'
  · subst h5; simp [encodeChar, parseStringBody, escChar]
  by_cases h6 : c = '\x08'
  · subst h6; simp [encodeChar, parseStringBody, escChar]
  by_cases h7 : c = '\x0c'
  · subst h7; simp [encodeChar, parseStringBody, escChar]
  by_cases h8 : 32 ≤ c.toNat ∧ c.toNat ≤ 126
  · have hc32 : ¬c.toNat < 32 := by omega
    rw [encodeChar, if_neg h1, if_neg h2, if_neg h3, if_neg h4, if_neg h5,
      if_neg h6, if_neg h7, if_pos h8, List.cons_append, List.nil_append,
      parseStringBody.eq_def]
    simp [h1, h2, hc32]
  by_cases h9 : c.toNat < 65536
  · have hns : ¬(55296 ≤ c.toNat ∧ c.toNat ≤ 56319) := by omega
    have hns2 : ¬(56320 ≤ c.toNat ∧ c.toNat ≤ 57343) := by omega
    rw [encodeChar, if_neg h1, if_neg h2, if_neg h3, if_neg h4, if_neg h5,
      if_neg h6, if_neg h7, if_neg h8, if_pos h9, uEscape]
    rw [List.cons_append, List.cons_append, parseStringBody_uescape,
      parseUEscape_bmp c.toNat h9 hns hns2 tail]
    rw [Option.some_bind, Char.ofNat_toNat]
  · have hhi : 55296 + (c.toNat - 65536) / 1024 < 65536 := by omega
    have hmod : (c.toNat - 65536) % 1024 < 1024 := Nat.mod_lt _ (by norm_num)
    have hlo : 56320 + (c.toNat - 65536) % 1024 < 65536 := by omega
    have hhi2 : 55296 ≤ 55296 + (c.toNat - 65536) / 1024
        ∧ 55296 + (c.toNat - 65536) / 1024 ≤ 56319 := by omega
    have hlo2 : 56320 ≤ 56320 + (c.toNat - 65536) % 1024
        ∧ 56320 + (c.toNat - 65536) % 1024 ≤ 57343 := by omega
    have hXeq : Char.ofNat (65536 + (c.toNat - 65536) / 1024 * 1024
        + (c.toNat - 65536) % 1024) = c := by
      have hdm := Nat.div_add_mod (c.toNat - 65536) 1024
      have hh : 65536 + (c.toNat - 65536) / 1024 * 1024 + (c.toNat - 65536) % 1024
          = c.toNat := by omega
      rw [hh, Char.ofNat_toNat]
    have hcomb : 65536 + (55296 + (c.toNat - 65536) / 1024 - 55296) * 1024
        + (56320 + (c.toNat - 65536) % 1024 - 56320)
        = 65536 + (c.toNat - 65536) / 1024 * 1024 + (c.toNat - 65536) % 1024 := by
      omega
    rw [encodeChar, if_neg h1, if_neg h2, if_neg h3, if_neg h4, if_neg h5,
      if_neg h6, if_neg h7, if_neg h8, if_neg h9, uEscape, uEscape]
    simp only [List.cons_append, List.append_assoc]
    rw [parseStringBody_uescape, parseUEscape_astral _ _ hhi2 hlo2 tail]
    rw [Option.some_bind, hcomb, hXeq]

theorem encodeChar_ne_nil (c : Char) : encodeChar c ≠ [] := by
  rw [encodeChar]
  split_ifs <;> simp [uEscape]

/-- An encoded string body followed by the closing quote parses back. -/
theorem parseStringBody_encode (s : Str) :
    ∀ (fuel : Nat) (suffix : List Char), s.length + 1 ≤ fuel →
    parseStringBody fuel ((s.map encodeChar).flatten ++ '"' :: suffix)
      = some (s, suffix) := by
  induction s with
  | nil =>
      intro fuel suffix h
      obtain ⟨f, rfl⟩ : ∃ f, fuel = f + 1 := ⟨fuel - 1, by omega⟩
      simp [parseStringBody]
  | cons c cs ih =>
      intro fuel suffix h
      obtain ⟨f, rfl⟩ : ∃ f, fuel = f + 1 := ⟨fuel - 1, by omega⟩
      rw [List.map_cons, List.flatten_cons, List.append_assoc,
        parseStringBody_encodeChar c f _,
        ih f suffix (by simp at h; omega)]
      rfl

theorem length_le_flatten_encode (s : Str) :
    s.length ≤ ((s.map encodeChar).flatten).length := by
  induction s with
  | nil => simp
  | cons c cs ih =>
      rw [List.map_cons, List.flatten_cons, List.length_append, List.length_cons]
      have : 1 ≤ (encodeChar c).length := by
        cases hc : encodeChar c with
        | nil => exact absurd hc (encodeChar_ne_nil c)
        | cons a t => simp
      omega

/-- A serialized string literal parses back with the self-fuelled parser. -/
theorem parseJStr_encode (s : Str) (suffix : List Char) :
    parseJStr ((s.map encodeChar).flatten ++ '"' :: suffix) = some (s, suffix) := by
  rw [parseJStr]
  apply parseStringBody_encode
  rw [List.length_append, List.length_cons]
  have := length_le_flatten_encode s
  omega

/-! ## JSON value serialization (`json.dumps(data, indent=2)`) -/

def spaces (n : Nat) : List Char := List.replicate n ' '

mutual
/-- `json.dumps(v, indent=2)` at indentation level `ind`: scalars inline;
empty containers as `[]`/`\x7b\x7d`; non-empty containers with each item
on its own line at `ind + 2` spaces, separated by commas, keys followed by
`: `, and the closing bracket at `ind` spaces. -/
def dumpVal (ind : Nat) : JVal → List Char
  | .null => "null".toList
  | .bool true => "true".toList
  | .bool false => "false".toList
  | .num n => intToChars n
  | .str s => encodeStr s
  | .arr [] => ['[', ']']
  | .arr (x :: xs) =>
      '[' :: '\n' :: (spaces (ind + 2) ++ dumpVal (ind + 2) x
        ++ dumpArrItems (ind + 2) xs ++ '\n' :: (spaces ind ++ [']']))
  | .obj [] => ['{', '}']
  | .obj ((k, v) :: kvs) =>
      '{' :: '\n' :: (spaces (ind + 2) ++ encodeStr k
        ++ ':' :: ' ' :: dumpVal (ind + 2) v
        ++ dumpObjItems (ind + 2) kvs ++ '\n' :: (spaces ind ++ ['}']))
termination_by structural v => v

def dumpArrItems (ind : Nat) : List JVal → List Char
  | [] => []
  | x :: xs => ',' :: '\n' :: (spaces ind ++ dumpVal ind x ++ dumpArrItems ind xs)
termination_by structural l => l

def dumpObjItems (ind : Nat) : List (Str × JVal) → List Char
  | [] => []
  | (k, v) :: kvs =>
      ',' :: '\n' :: (spaces ind ++ encodeStr k ++ ':' :: ' ' :: dumpVal ind v
        ++ dumpObjItems ind kvs)
termination_by structural l => l
end

/-- `json.dumps(v, indent=2)` as `_write_json` calls it. -/
def dumps (v : JVal) : List Char := dumpVal 0 v

/-! ## Structural size and well-formedness of JSON values -/

mutual
/-- Fuel needed to parse the serialization of a value. -/
def jsize : JVal → Nat
  | .arr es => 1 + jsizeArr es
  | .obj fs => 1 + jsizeObj fs
  | _ => 1
termination_by structural v => v

def jsizeArr : List JVal → Nat
  | [] => 0
  | x :: xs => 1 + jsize x + jsizeArr xs
termination_by structural l => l

def jsizeObj : List (Str × JVal) → Nat
  | [] => 0
  | (_, v) :: kvs => 1 + jsize v + jsizeObj kvs
termination_by structural l => l
end

mutual
/-- A JSON value is well-formed when every object in it has distinct keys
(every structure produced by Python dicts is). -/
def jwf : JVal → Bool
  | .arr es => jwfArr es
  | .obj fs => decide ((keysOf fs).Nodup) && jwfObj fs
  | _ => true
termination_by structural v => v

def jwfArr : List JVal → Bool
  | [] => true
  | x :: xs => jwf x && jwfArr xs
termination_by structural l => l

def jwfObj : List (Str × JVal) → Bool
  | [] => true
  | (_, v) :: kvs => jwf v && jwfObj kvs
termination_by structural l => l
end

/-! ## JSON value parsing (`json.loads`) -/

/-- Match the tail of a fixed literal (`null`, `true`, `false`). -/
def expectLit : List Char → JVal → List Char → Option (JVal × List Char)
  | [], v, cs => some (v, cs)
  | l :: ls, v, c :: cs => if c = l then expectLit ls v cs else none
  | _ :: _, _, [] => none

mutual
/-- `json.loads`'s recursive value scanner, fuel-bounded (the input length
is always enough).  Restricted to integer numerals: fraction/exponent
parts and `NaN`/`Infinity` (floats) are outside the model and fail here. -/
def parseVal : Nat → List Char → Option (JVal × List Char)
  | 0, _ => none
  | fuel + 1, cs =>
      match skipWs cs with
      | [] => none
      | c :: rest =>
          if c = 'n' then expectLit ['u', 'l', 'l'] JVal.null rest
          else if c = 't' then expectLit ['r', 'u', 'e'] (JVal.bool true) rest
          else if c = 'f' then expectLit ['a', 'l', 's', 'e'] (JVal.bool false) rest
          else if c = '"' then
            match parseJStr rest with
            | none => none
            | some (s, r) => some (JVal.str s, r)
          else if c = '[' then
            let cs2 := skipWs rest
            if cs2.head? = some ']' then some (JVal.arr [], cs2.tail)
            else
              match parseVal fuel cs2 with
              | none => none
              | some (v, r) => parseArrRest fuel [v] r
          else if c = '{' then
            let cs2 := skipWs rest
            if cs2.head? = some '}' then some (JVal.obj [], cs2.tail)
            else if cs2.head? = some '"' then
              match parseJStr cs2.tail with
              | none => none
              | some (k, r1) =>
                  let r2 := skipWs r1
                  if r2.head? = some ':' then
                    match parseVal fuel r2.tail with
                    | none => none
                    | some (v, r3) => parseObjRest fuel (setKey [] k v) r3
                  else none
            else none
          else if c = '-' then
            match parseNum rest with
            | none => none
            | some (n, r) => some (JVal.num (-(n : Int)), r)
          else
            match parseNum (c :: rest) with
            | none => none
            | some (n, r) => some (JVal.num (n : Int), r)
termination_by structural fuel => fuel

/-- The rest of an array after at least one element has been parsed. -/
def parseArrRest : Nat → List JVal → List Char → Option (JVal × List Char)
  | 0, _, _ => none
  | fuel + 1, acc, cs =>
      let cs2 := skipWs cs
      if cs2.head? = some ']' then some (JVal.arr acc, cs2.tail)
      else if cs2.head? = some ',' then
        match parseVal fuel cs2.tail with
        | none => none
        | some (v, r) => parseArrRest fuel (acc ++ [v]) r
      else none
termination_by structural fuel => fuel

/-- The rest of an object after at least one entry has been parsed;
entries accumulate with dict-assignment semantics (a repeated key keeps
its first position and the last value). -/
def parseObjRest : Nat → Dict → List Char → Option (JVal × List Char)
  | 0, _, _ => none
  | fuel + 1, acc, cs =>
      let cs2 := skipWs cs
      if cs2.head? = some '}' then some (JVal.obj acc, cs2.tail)
      else if cs2.head? = some ',' then
        let cs3 := skipWs cs2.tail
        if cs3.head? = some '"' then
          match parseJStr cs3.tail with
          | none => none
          | some (k, r1) =>
              let r2 := skipWs r1
              if r2.head? = some ':' then
                match parseVal fuel r2.tail with
                | none => none
                | some (v, r3) => parseObjRest fuel (setKey acc k v) r3
              else none
        else none
      else none
termination_by structural fuel => fuel
end

/-- `json.loads` (on the integer-numeral JSON subset): parse one value,
then require that only whitespace remains. -/
def loads (text : Str) : Option JVal :=
  match parseVal (text.length + 1) text with
  | some (v, rest) => if (skipWs rest).isEmpty then some v else none
  | none => none

/-! ## The JSON store (`_read_json` / `_write_json`) -/

/-- Result of `_read_json`: a parsed value, or a propagated
`json.JSONDecodeError`. -/
inductive ReadResult where
  | ok (v : JVal)
  | parseError
  deriving Repr

/-- `_read_json(path)`: an empty dict when the path is not a regular file
(`content = none`) or when the text is empty or whitespace-only after
`strip()`; otherwise `json.loads(text)`, whose failure propagates.  The
file system is abstracted to the optional file content. -/
def readJson (content : Option Str) : ReadResult :=
  match content with
  | none => .ok (.obj [])
  | some text =>
      if (strip text).isEmpty then .ok (.obj [])
      else
        match loads text with
        | some v => .ok v
        | none => .parseError

/-- `_write_json(path, data)`: the file content written,
`json.dumps(data, indent=2) + "\n"`. -/
def writeJson (data : Dict) : Str := dumps (JVal.obj data) ++ ['\n']

/-! ## Round-trip helper lemmas -/

theorem skipWs_cons_ws (c : Char) (cs : List Char) (h : jsonWs c = true) :
    skipWs (c :: cs) = skipWs cs := by
  simp [skipWs, List.dropWhile_cons, h]

theorem skipWs_cons_not (c : Char) (cs : List Char) (h : jsonWs c = false) :
    skipWs (c :: cs) = c :: cs := by
  simp [skipWs, List.dropWhile_cons, h]

theorem skipWs_spaces (n : Nat) (cs : List Char) :
    skipWs (spaces n ++ cs) = skipWs cs := by
  induction n with
  | zero => rfl
  | succ m ih =>
      rw [spaces, List.replicate_succ, List.cons_append,
        skipWs_cons_ws ' ' _ (by decide)]
      exact ih

theorem expectLit_append (lit : List Char) (v : JVal) :
    ∀ cs : List Char, expectLit lit v (lit ++ cs) = some (v, cs) := by
  induction lit with
  | nil => intro cs; rfl
  | cons l ls ih => intro cs; simp [expectLit, ih]

theorem parseVal_skip_ws (fuel : Nat) (c : Char) (cs : List Char)
    (h : jsonWs c = true) :
    parseVal (fuel + 1) (c :: cs) = parseVal (fuel + 1) cs := by
  rw [parseVal, parseVal, skipWs_cons_ws c cs h]

theorem parseVal_skip_spaces (fuel n : Nat) (cs : List Char) :
    parseVal (fuel + 1) (spaces n ++ cs) = parseVal (fuel + 1) cs := by
  induction n with
  | zero => rfl
  | succ m ih =>
      rw [spaces, List.replicate_succ, List.cons_append,
        parseVal_skip_ws fuel ' ' _ (by decide)]
      exact ih

theorem isDigit_head_facts (c : Char) (h : isDigitChar c = true) :
    jsonWs c = false ∧ c ≠ 'n' ∧ c ≠ 't' ∧ c ≠ 'f' ∧ c ≠ '"' ∧ c ≠ '[' ∧
    c ≠ '{' ∧ c ≠ '-' ∧ c ≠ ']' := by
  rw [isDigitChar, Bool.and_eq_true, decide_eq_true_eq, decide_eq_true_eq] at h
  refine ⟨?_, ?_, ?_, ?_, ?_, ?_, ?_, ?_, ?_⟩
  · rw [jsonWs, decide_eq_false_iff_not]
    rintro (hc | hc | hc | hc) <;> (rw [hc] at h; exact absurd h (by decide))
  all_goals intro hc; rw [hc] at h; exact absurd h (by decide)

theorem jsize_pos (x : JVal) : 1 ≤ jsize x := by
  cases x <;> simp [jsize]

theorem headNotDigit_dumpArrItems (ind : Nat) (xs : List JVal) (l : List Char) :
    headNotDigit (dumpArrItems ind xs ++ '\n' :: l) = true := by
  cases xs with
  | nil => rfl
  | cons x xs => rfl

theorem headNotDigit_dumpObjItems (ind : Nat) (kvs : List (Str × JVal)) (l : List Char) :
    headNotDigit (dumpObjItems ind kvs ++ '\n' :: l) = true := by
  cases kvs with
  | nil => rfl
  | cons kv kvs => obtain ⟨k, v⟩ := kv; rfl

theorem dumpVal_head (ind : Nat) (x : JVal) :
    ∃ c tl, dumpVal ind x = c :: tl ∧ jsonWs c = false ∧ c ≠ ']' := by
  cases x with
  | null => exact ⟨'n', _, rfl, by decide, by decide⟩
  | bool b =>
      cases b with
      | false => exact ⟨'f', _, rfl, by decide, by decide⟩
      | true => exact ⟨'t', _, rfl, by decide, by decide⟩
  | num n =>
      cases n with
      | ofNat m =>
          obtain ⟨d, more, hd⟩ : ∃ d more, natToDigits m = d :: more := by
            cases hnd : natToDigits m with
            | nil => exact absurd hnd (natToDigits_ne_nil m)
            | cons d more => exact ⟨d, more, rfl⟩
          have hdig : isDigitChar d = true :=
            natToDigits_all_digits m d (hd ▸ List.mem_cons_self d more)
          obtain ⟨hws, _, _, _, _, _, _, _, hrb⟩ := isDigit_head_facts d hdig
          exact ⟨d, more, by rw [dumpVal, intToChars, hd], hws, hrb⟩
      | negSucc m =>
          exact ⟨'-', _, by rw [dumpVal, intToChars], by decide, by decide⟩
  | str s => exact ⟨'"', _, rfl, by decide, by decide⟩
  | arr es =>
      cases es with
      | nil => exact ⟨'[', _, rfl, by decide, by decide⟩
      | cons x xs => exact ⟨'[', _, rfl, by decide, by decide⟩
  | obj fs =>
      cases fs with
      | nil => exact ⟨'{', _, rfl, by decide, by decide⟩
      | cons kv kvs =>
          obtain ⟨k, v⟩ := kv
          exact ⟨'{', _, rfl, by decide, by decide⟩

theorem parseVal_lit_n (fuel : Nat) (rest : List Char) :
    parseVal (fuel + 1) ('n' :: rest) = expectLit ['u', 'l', 'l'] JVal.null rest := by
  rw [parseVal, skipWs_cons_not _ _ (by decide)]
  rfl

theorem parseVal_lit_t (fuel : Nat) (rest : List Char) :
    parseVal (fuel + 1) ('t' :: rest)
      = expectLit ['r', 'u', 'e'] (JVal.bool true) rest := by
  rw [parseVal, skipWs_cons_not _ _ (by decide)]
  rfl

theorem parseVal_lit_f (fuel : Nat) (rest : List Char) :
    parseVal (fuel + 1) ('f' :: rest)
      = expectLit ['a', 'l', 's', 'e'] (JVal.bool false) rest := by
  rw [parseVal, skipWs_cons_not _ _ (by decide)]
  rfl

theorem parseVal_str_branch (fuel : Nat) (rest : List Char) :
    parseVal (fuel + 1) ('"' :: rest)
      = (match parseJStr rest with
         | none => none
         | some (s, r) => some (JVal.str s, r)) := by
  rw [parseVal, skipWs_cons_not _ _ (by decide)]
  rfl

theorem parseVal_arr_branch (fuel : Nat) (rest : List Char) :
    parseVal (fuel + 1) ('[' :: rest)
      = (let cs2 := skipWs rest
         if cs2.head? = some ']' then some (JVal.arr [], cs2.tail)
         else
           match parseVal fuel cs2 with
           | none => none
           | some (v, r) => parseArrRest fuel [v] r) := by
  rw [parseVal, skipWs_cons_not _ _ (by decide)]
  rfl

theorem parseVal_obj_branch (fuel : Nat) (rest : List Char) :
    parseVal (fuel + 1) ('{' :: rest)
      = (let cs2 := skipWs rest
         if cs2.head? = some '}' then some (JVal.obj [], cs2.tail)
         else if cs2.head? = some '"' then
           match parseJStr cs2.tail with
           | none => none
           | some (k, r1) =>
               let r2 := skipWs r1
               if r2.head? = some ':' then
                 match parseVal fuel r2.tail with
                 | none => none
                 | some (v, r3) => parseObjRest fuel (setKey [] k v) r3
               else none
         else none) := by
  rw [parseVal, skipWs_cons_not _ _ (by decide)]
  rfl

theorem parseVal_neg_branch (fuel : Nat) (rest : List Char) :
    parseVal (fuel + 1) ('-' :: rest)
      = (match parseNum rest with
         | none => none
         | some (n, r) => some (JVal.num (-(n : Int)), r)) := by
  rw [parseVal, skipWs_cons_not _ _ (by decide)]
  rfl

theorem parseVal_digit_branch (fuel : Nat) (c : Char) (rest : List Char)
    (h : isDigitChar c = true) :
    parseVal (fuel + 1) (c :: rest)
      = (match parseNum (c :: rest) with
         | none => none
         | some (n, r) => some (JVal.num (n : Int), r)) := by
  obtain ⟨hws, hn, ht, hf, hq, hlb, hob, hmi, hrb⟩ := isDigit_head_facts c h
  rw [parseVal, skipWs_cons_not _ _ hws]
  exact (if_neg hn).trans ((if_neg ht).trans ((if_neg hf).trans ((if_neg hq).trans
    ((if_neg hlb).trans ((if_neg hob).trans (if_neg hmi))))))

theorem parseArrRest_succ (fuel : Nat) (acc : List JVal) (cs : List Char) :
    parseArrRest (fuel + 1) acc cs
      = (let cs2 := skipWs cs
         if cs2.head? = some ']' then some (JVal.arr acc, cs2.tail)
         else if cs2.head? = some ',' then
           match parseVal fuel cs2.tail with
           | none => none
           | some (v, r) => parseArrRest fuel (acc ++ [v]) r
         else none) := by
  rw [parseArrRest]

theorem parseObjRest_succ (fuel : Nat) (acc : Dict) (cs : List Char) :
    parseObjRest (fuel + 1) acc cs
      = (let cs2 := skipWs cs
         if cs2.head? = some '}' then some (JVal.obj acc, cs2.tail)
         else if cs2.head? = some ',' then
           let cs3 := skipWs cs2.tail
           if cs3.head? = some '"' then
             match parseJStr cs3.tail with
             | none => none
             | some (k, r1) =>
                 let r2 := skipWs r1
                 if r2.head? = some ':' then
                   match parseVal fuel r2.tail with
                   | none => none
                   | some (v, r3) => parseObjRest fuel (setKey acc k v) r3
                 else none
           else none
         else none) := by
  rw [parseObjRest]

mutual

theorem parse_dumpVal (x : JVal) : ∀ (fuel ind : Nat) (rest : List Char),
    jsize x ≤ fuel → jwf x = true → headNotDigit rest = true →
    parseVal fuel (dumpVal ind x ++ rest) = some (x, rest) := by
  intro fuel ind rest hfu hwf hrd
  obtain ⟨f, rfl⟩ : ∃ f, fuel = f + 1 :=
    ⟨fuel - 1, by have := jsize_pos x; omega⟩
  cases x with
  | null =>
      rw [show dumpVal ind JVal.null ++ rest = 'n' :: (['u', 'l', 'l'] ++ rest)
        from rfl, parseVal_lit_n]
      exact expectLit_append ['u', 'l', 'l'] JVal.null rest
  | bool b =>
      cases b with
      | true =>
          rw [show dumpVal ind (JVal.bool true) ++ rest
            = 't' :: (['r', 'u', 'e'] ++ rest) from rfl, parseVal_lit_t]
          exact expectLit_append ['r', 'u', 'e'] (JVal.bool true) rest
      | false =>
          rw [show dumpVal ind (JVal.bool false) ++ rest
            = 'f' :: (['a', 'l', 's', 'e'] ++ rest) from rfl, parseVal_lit_f]
          exact expectLit_append ['a', 'l', 's', 'e'] (JVal.bool false) rest
  | num n =>
      cases n with
      | ofNat m =>
          obtain ⟨d, more, hd⟩ : ∃ d more, natToDigits m = d :: more := by
            cases hnd : natToDigits m with
            | nil => exact absurd hnd (natToDigits_ne_nil m)
            | cons d more => exact ⟨d, more, rfl⟩
          have hdig : isDigitChar d = true :=
            natToDigits_all_digits m d (hd ▸ List.mem_cons_self d more)
          rw [show dumpVal ind (JVal.num (Int.ofNat m)) ++ rest
              = natToDigits m ++ rest from rfl, hd, List.cons_append,
            parseVal_digit_branch f d _ hdig,
            show d :: (more ++ rest) = natToDigits m ++ rest from by
              rw [hd]; rfl,
            parseNum_natToDigits m rest hrd]
          rfl
      | negSucc m =>
          rw [show dumpVal ind (JVal.num (Int.negSucc m)) ++ rest
              = '-' :: (natToDigits (m + 1) ++ rest) from rfl,
            parseVal_neg_branch, parseNum_natToDigits (m + 1) rest hrd]
          show some (JVal.num (-((m : Int) + 1)), rest)
            = some (JVal.num (Int.negSucc m), rest)
          rw [Int.negSucc_eq]
  | str s =>
      rw [show dumpVal ind (JVal.str s) ++ rest
          = '"' :: ((s.map encodeChar).flatten ++ '"' :: rest) from by
            show encodeStr s ++ rest = _
            rw [encodeStr]
            simp [List.append_assoc],
        parseVal_str_branch, parseJStr_encode s rest]
  | arr es =>
      cases es with
      | nil =>
          rw [show dumpVal ind (JVal.arr []) ++ rest = '[' :: (']' :: rest)
            from rfl, parseVal_arr_branch]
          rw [show skipWs (']' :: rest) = ']' :: rest from
            skipWs_cons_not _ _ (by decide)]
          rfl
      | cons x1 xs =>
          have hsz : 1 + (1 + jsize x1 + jsizeArr xs) ≤ f + 1 := by
            simpa [jsize, jsizeArr] using hfu
          have hwf1 : jwf x1 = true ∧ jwfArr xs = true := by
            simpa [jwf, jwfArr, Bool.and_eq_true] using hwf
          obtain ⟨c1, tl1, hdump, hc1ws, hc1rb⟩ := dumpVal_head (ind + 2) x1
          rw [show dumpVal ind (JVal.arr (x1 :: xs)) ++ rest
              = '[' :: ('\n' :: (spaces (ind + 2) ++ (dumpVal (ind + 2) x1
                ++ (dumpArrItems (ind + 2) xs
                  ++ '\n' :: (spaces ind ++ ']' :: rest))))) from by
              rw [dumpVal]; simp [List.append_assoc],
            parseVal_arr_branch,
            skipWs_cons_ws '\n' _ (by decide), skipWs_spaces, hdump,
            List.cons_append, skipWs_cons_not _ _ hc1ws]
          simp only [List.head?_cons, Option.some.injEq, List.tail_cons]
          rw [if_neg hc1rb,
            show c1 :: (tl1 ++ (dumpArrItems (ind + 2) xs
                ++ '\n' :: (spaces ind ++ ']' :: rest)))
              = dumpVal (ind + 2) x1 ++ (dumpArrItems (ind + 2) xs
                ++ '\n' :: (spaces ind ++ ']' :: rest)) from by rw [hdump]; rfl,
            parse_dumpVal x1 f (ind + 2) _ (by omega) hwf1.1
              (headNotDigit_dumpArrItems (ind + 2) xs _)]
          show parseArrRest f [x1] (dumpArrItems (ind + 2) xs
              ++ '\n' :: (spaces ind ++ ']' :: rest))
            = some (JVal.arr (x1 :: xs), rest)
          rw [parse_dumpArr xs f ind (ind + 2) [x1] rest (by omega) hwf1.2]
          rfl
  | obj fs =>
      cases fs with
      | nil =>
          rw [show dumpVal ind (JVal.obj []) ++ rest = '{' :: ('}' :: rest)
            from rfl, parseVal_obj_branch]
          rw [show skipWs ('}' :: rest) = '}' :: rest from
            skipWs_cons_not _ _ (by decide)]
          rfl
      | cons kv kvs =>
          obtain ⟨k, v⟩ := kv
          have hsz : 1 + (1 + jsize v + jsizeObj kvs) ≤ f + 1 := by
            simpa [jsize, jsizeObj] using hfu
          have hwfc : (keysOf ((k, v) :: kvs)).Nodup ∧ jwf v = true
              ∧ jwfObj kvs = true := by
            have := hwf
            rw [jwf, Bool.and_eq_true, jwfObj, Bool.and_eq_true,
              decide_eq_true_eq] at this
            exact ⟨this.1, this.2.1, this.2.2⟩
          obtain ⟨f2, rfl⟩ : ∃ f2, f = f2 + 1 :=
            ⟨f - 1, by have := jsize_pos v; omega⟩
          rw [show dumpVal ind (JVal.obj ((k, v) :: kvs)) ++ rest
              = '{' :: ('\n' :: (spaces (ind + 2) ++ (encodeStr k
                ++ ':' :: ' ' :: (dumpVal (ind + 2) v
                  ++ (dumpObjItems (ind + 2) kvs
                    ++ '\n' :: (spaces ind ++ '}' :: rest)))))) from by
              rw [dumpVal]; simp [List.append_assoc],
            parseVal_obj_branch,
            skipWs_cons_ws '\n' _ (by decide), skipWs_spaces,
            show encodeStr k ++ ':' :: ' ' :: (dumpVal (ind + 2) v
                ++ (dumpObjItems (ind + 2) kvs
                  ++ '\n' :: (spaces ind ++ '}' :: rest)))
              = '"' :: ((k.map encodeChar).flatten
                ++ '"' :: (':' :: ' ' :: (dumpVal (ind + 2) v
                  ++ (dumpObjItems (ind + 2) kvs
                    ++ '\n' :: (spaces ind ++ '}' :: rest))))) from by
              rw [encodeStr]; simp [List.append_assoc],
            skipWs_cons_not _ _ (by decide)]
          simp only [List.head?_cons, Option.some.injEq, List.tail_cons,
            reduceIte]
          rw [parseJStr_encode k _]
          show (let r2 := skipWs (':' :: ' ' :: (dumpVal (ind + 2) v
              ++ (dumpObjItems (ind + 2) kvs
                ++ '\n' :: (spaces ind ++ '}' :: rest))))
            if r2.head? = some ':' then
              match parseVal (f2 + 1) r2.tail with
              | none => none
              | some (v2, r3) => parseObjRest (f2 + 1) (setKey [] k v2) r3
            else none) = some (JVal.obj ((k, v) :: kvs), rest)
          rw [skipWs_cons_not _ _ (by decide)]
          simp only [List.head?_cons, Option.some.injEq, List.tail_cons,
            reduceIte]
          rw [parseVal_skip_ws f2 ' ' _ (by decide),
            parse_dumpVal v (f2 + 1) (ind + 2) _ (by omega) hwfc.2.1
              (headNotDigit_dumpObjItems (ind + 2) kvs _)]
          show parseObjRest (f2 + 1) (setKey [] k v)
              (dumpObjItems (ind + 2) kvs ++ '\n' :: (spaces ind ++ '}' :: rest))
            = some (JVal.obj ((k, v) :: kvs), rest)
          have hknodup : k ∉ keysOf kvs ∧ (keysOf kvs).Nodup := by
            have h2 := hwfc.1
            rw [keysOf_cons, List.nodup_cons] at h2
            exact h2
          rw [show setKey [] k v = [(k, v)] from rfl,
            parse_dumpObj kvs (f2 + 1) ind (ind + 2) [(k, v)] rest (by omega)
              hwfc.2.2
              (by
                intro j hj
                rw [show keysOf [(k, v)] = [k] from rfl, List.mem_singleton]
                intro hjk
                rw [hjk] at hj
                exact hknodup.1 hj)
              hknodup.2]
          rfl

theorem parse_dumpArr (es : List JVal) :
    ∀ (fuel ind ind2 : Nat) (acc : List JVal) (rest : List Char),
    jsizeArr es + 1 ≤ fuel → jwfArr es = true →
    parseArrRest fuel acc
        (dumpArrItems ind2 es ++ '\n' :: (spaces ind ++ ']' :: rest))
      = some (JVal.arr (acc ++ es), rest) := by
  intro fuel ind ind2 acc rest hfu hwf
  obtain ⟨f, rfl⟩ : ∃ f, fuel = f + 1 := ⟨fuel - 1, by omega⟩
  cases es with
  | nil =>
      rw [show dumpArrItems ind2 [] ++ '\n' :: (spaces ind ++ ']' :: rest)
          = '\n' :: (spaces ind ++ ']' :: rest) from rfl,
        parseArrRest_succ,
        skipWs_cons_ws '\n' _ (by decide), skipWs_spaces,
        skipWs_cons_not _ _ (by decide)]
      simp
  | cons x xs =>
      have hsz : (1 + jsize x + jsizeArr xs) + 1 ≤ f + 1 := by
        simpa [jsizeArr] using hfu
      have hwf1 : jwf x = true ∧ jwfArr xs = true := by
        simpa [jwfArr, Bool.and_eq_true] using hwf
      obtain ⟨f2, rfl⟩ : ∃ f2, f = f2 + 1 :=
        ⟨f - 1, by have := jsize_pos x; omega⟩
      rw [show dumpArrItems ind2 (x :: xs)
            ++ '\n' :: (spaces ind ++ ']' :: rest)
          = ',' :: ('\n' :: (spaces ind2 ++ (dumpVal ind2 x
            ++ (dumpArrItems ind2 xs ++ '\n' :: (spaces ind ++ ']' :: rest)))))
          from by rw [dumpArrItems]; simp [List.append_assoc],
        parseArrRest_succ, skipWs_cons_not _ _ (by decide)]
      simp only [List.head?_cons, Option.some.injEq, List.tail_cons,
        reduceIte]
      rw [parseVal_skip_ws f2 '\n' _ (by decide), parseVal_skip_spaces,
        parse_dumpVal x (f2 + 1) ind2 _ (by omega) hwf1.1
          (headNotDigit_dumpArrItems ind2 xs _)]
      show parseArrRest (f2 + 1) (acc ++ [x])
          (dumpArrItems ind2 xs ++ '\n' :: (spaces ind ++ ']' :: rest))
        = some (JVal.arr (acc ++ x :: xs), rest)
      rw [parse_dumpArr xs (f2 + 1) ind ind2 (acc ++ [x]) rest (by omega)
        hwf1.2]
      simp

theorem parse_dumpObj (fs : List (Str × JVal)) :
    ∀ (fuel ind ind2 : Nat) (acc : Dict) (rest : List Char),
    jsizeObj fs + 1 ≤ fuel → jwfObj fs = true →
    (∀ j ∈ keysOf fs, j ∉ keysOf acc) → (keysOf fs).Nodup →
    parseObjRest fuel acc
        (dumpObjItems ind2 fs ++ '\n' :: (spaces ind ++ '}' :: rest))
      = some (JVal.obj (acc ++ fs), rest) := by
  intro fuel ind ind2 acc rest hfu hwf hdisj hnd
  obtain ⟨f, rfl⟩ : ∃ f, fuel = f + 1 := ⟨fuel - 1, by omega⟩
  cases fs with
  | nil =>
      rw [show dumpObjItems ind2 [] ++ '\n' :: (spaces ind ++ '}' :: rest)
          = '\n' :: (spaces ind ++ '}' :: rest) from rfl,
        parseObjRest_succ,
        skipWs_cons_ws '\n' _ (by decide), skipWs_spaces,
        skipWs_cons_not _ _ (by decide)]
      simp
  | cons kv kvs =>
      obtain ⟨k, v⟩ := kv
      have hsz : (1 + jsize v + jsizeObj kvs) + 1 ≤ f + 1 := by
        simpa [jsizeObj] using hfu
      have hwf1 : jwf v = true ∧ jwfObj kvs = true := by
        simpa [jwfObj, Bool.and_eq_true] using hwf
      have hknodup : k ∉ keysOf kvs ∧ (keysOf kvs).Nodup := by
        have h2 := hnd
        rw [keysOf_cons, List.nodup_cons] at h2
        exact h2
      obtain ⟨f2, rfl⟩ : ∃ f2, f = f2 + 1 :=
        ⟨f - 1, by have := jsize_pos v; omega⟩
      rw [show dumpObjItems ind2 ((k, v) :: kvs)
            ++ '\n' :: (spaces ind ++ '}' :: rest)
          = ',' :: ('\n' :: (spaces ind2 ++ (encodeStr k
            ++ ':' :: ' ' :: (dumpVal ind2 v
              ++ (dumpObjItems ind2 kvs
                ++ '\n' :: (spaces ind ++ '}' :: rest))))))
          from by rw [dumpObjItems]; simp [List.append_assoc],
        parseObjRest_succ, skipWs_cons_not _ _ (by decide)]
      simp only [List.head?_cons, Option.some.injEq, List.tail_cons,
        reduceIte]
      rw [skipWs_cons_ws '\n' _ (by decide), skipWs_spaces,
        show encodeStr k ++ ':' :: ' ' :: (dumpVal ind2 v
            ++ (dumpObjItems ind2 kvs ++ '\n' :: (spaces ind ++ '}' :: rest)))
          = '"' :: ((k.map encodeChar).flatten
            ++ '"' :: (':' :: ' ' :: (dumpVal ind2 v
              ++ (dumpObjItems ind2 kvs
                ++ '\n' :: (spaces ind ++ '}' :: rest))))) from by
          rw [encodeStr]; simp [List.append_assoc],
        skipWs_cons_not _ _ (by decide)]
      simp only [List.head?_cons, Option.some.injEq, List.tail_cons,
        reduceIte]
      rw [parseJStr_encode k _]
      show (let r2 := skipWs (':' :: ' ' :: (dumpVal ind2 v
          ++ (dumpObjItems ind2 kvs ++ '\n' :: (spaces ind ++ '}' :: rest))))
        if r2.head? = some ':' then
          match parseVal (f2 + 1) r2.tail with
          | none => none
          | some (v2, r3) => parseObjRest (f2 + 1) (setKey acc k v2) r3
        else none) = some (JVal.obj (acc ++ (k, v) :: kvs), rest)
      rw [skipWs_cons_not _ _ (by decide)]
      simp only [List.head?_cons, Option.some.injEq, List.tail_cons,
        reduceIte]
      rw [parseVal_skip_ws f2 ' ' _ (by decide),
        parse_dumpVal v (f2 + 1) ind2 _ (by omega) hwf1.1
          (headNotDigit_dumpObjItems ind2 kvs _)]
      show parseObjRest (f2 + 1) (setKey acc k v)
          (dumpObjItems ind2 kvs ++ '\n' :: (spaces ind ++ '}' :: rest))
        = some (JVal.obj (acc ++ (k, v) :: kvs), rest)
      have hkacc : k ∉ keysOf acc := hdisj k (by
        rw [keysOf_cons]; exact List.mem_cons_self k _)
      rw [setKey_of_not_mem k v acc hkacc,
        parse_dumpObj kvs (f2 + 1) ind ind2 (acc ++ [(k, v)]) rest (by omega)
          hwf1.2
          (by
            intro j hj
            rw [keysOf_append, List.mem_append]
            rintro (hja | hjk)
            · exact hdisj j (by rw [keysOf_cons]; exact List.mem_cons_of_mem k hj) hja
            · rw [show keysOf [(k, v)] = [k] from rfl, List.mem_singleton] at hjk
              rw [hjk] at hj
              exact hknodup.1 hj)
          hknodup.2]
      simp

end

/-! ## From the parser lemmas to the store round-trip -/

mutual
theorem jsize_le_dump (x : JVal) : ∀ ind : Nat, jsize x ≤ (dumpVal ind x).length := by
  intro ind
  cases x with
  | null => simp [dumpVal, jsize]
  | bool b => cases b <;> simp [dumpVal, jsize]
  | num n =>
      cases n with
      | ofNat m =>
          have h1 : 0 < (natToDigits m).length :=
            List.length_pos.mpr (natToDigits_ne_nil m)
          simp only [dumpVal, intToChars, jsize]
          omega
      | negSucc m => simp [dumpVal, intToChars, jsize]
  | str s => simp [dumpVal, jsize, encodeStr]
  | arr es =>
      cases es with
      | nil => simp [dumpVal, jsize, jsizeArr]
      | cons x1 xs =>
          have h1 := jsize_le_dump x1 (ind + 2)
          have h2 := jsizeArr_le_dump xs (ind + 2)
          simp only [dumpVal, jsize, jsizeArr, List.length_cons,
            List.length_append, spaces, List.length_replicate]
          omega
  | obj fs =>
      cases fs with
      | nil => simp [dumpVal, jsize, jsizeObj]
      | cons kv kvs =>
          obtain ⟨k, v⟩ := kv
          have h1 := jsize_le_dump v (ind + 2)
          have h2 := jsizeObj_le_dump kvs (ind + 2)
          simp only [dumpVal, jsize, jsizeObj, List.length_cons,
            List.length_append, spaces, List.length_replicate]
          omega

theorem jsizeArr_le_dump (es : List JVal) :
    ∀ ind : Nat, jsizeArr es ≤ (dumpArrItems ind es).length := by
  intro ind
  cases es with
  | nil => simp [dumpArrItems, jsizeArr]
  | cons x xs =>
      have h1 := jsize_le_dump x ind
      have h2 := jsizeArr_le_dump xs ind
      simp only [dumpArrItems, jsizeArr, List.length_cons, List.length_append,
        spaces, List.length_replicate]
      omega

theorem jsizeObj_le_dump (fs : List (Str × JVal)) :
    ∀ ind : Nat, jsizeObj fs ≤ (dumpObjItems ind fs).length := by
  intro ind
  cases fs with
  | nil => simp [dumpObjItems, jsizeObj]
  | cons kv kvs =>
      obtain ⟨k, v⟩ := kv
      have h1 := jsize_le_dump v ind
      have h2 := jsizeObj_le_dump kvs ind
      simp only [dumpObjItems, jsizeObj, List.length_cons, List.length_append,
        spaces, List.length_replicate]
      omega
end

/-- The serialized document plus trailing newline parses back. -/
theorem loads_writeJson (data : Dict) (h : jwf (JVal.obj data) = true) :
    loads (writeJson data) = some (JVal.obj data) := by
  rw [loads, writeJson, dumps]
  rw [parse_dumpVal (JVal.obj data) _ 0 ['\n']
    (by
      have := jsize_le_dump (JVal.obj data) 0
      rw [List.length_append]
      omega)
    h (by decide)]
  rfl

/-! ## Blank and non-blank contents -/

theorem dropWhile_head_false {α : Type} (p : α → Bool) :
    ∀ (l : List α) (c : α) (tl : List α), l.dropWhile p = c :: tl → p c = false := by
  intro l
  induction l with
  | nil => intro c tl h; exact absurd h (by simp)
  | cons a as ih =>
      intro c tl h
      rw [List.dropWhile_cons] at h
      by_cases hpa : p a = true
      · rw [if_pos hpa] at h
        exact ih c tl h
      · rw [Bool.not_eq_true] at hpa
        rw [if_neg (by simp [hpa])] at h
        injection h with h1 _
        rw [← h1]
        exact hpa

theorem strip_isEmpty_all_space (text : Str) (h : (strip text).isEmpty = true) :
    ∀ c ∈ text, pyIsSpace c = true := by
  rw [strip, List.isEmpty_iff, List.reverse_eq_nil_iff,
    List.dropWhile_eq_nil_iff] at h
  intro c hc
  have hsplit := List.takeWhile_append_dropWhile (p := pyIsSpace) (l := text)
  rw [← hsplit] at hc
  rcases List.mem_append.1 hc with h1 | h2
  · exact List.mem_takeWhile_imp h1
  · exact h _ (List.mem_reverse.2 h2)

theorem strip_cons_not_space (c : Char) (l : Str) (h : pyIsSpace c = false) :
    (strip (c :: l)).isEmpty = false := by
  by_contra hem
  rw [Bool.not_eq_false] at hem
  have := strip_isEmpty_all_space (c :: l) hem c (List.mem_cons_self c l)
  rw [h] at this
  cases this

theorem parseNum_nondigit (c : Char) (tl : List Char)
    (h : isDigitChar c = false) : parseNum (c :: tl) = none := by
  rw [parseNum, List.takeWhile_cons, h]
  rfl

theorem pySpace_not_starter (c : Char) (hps : pyIsSpace c = true)
    (hws : jsonWs c = false) :
    isDigitChar c = false ∧ c ≠ 'n' ∧ c ≠ 't' ∧ c ≠ 'f' ∧ c ≠ '"' ∧
    c ≠ '[' ∧ c ≠ '\x7b' ∧ c ≠ '-' := by
  rw [pyIsSpace, decide_eq_true_eq] at hps
  rw [jsonWs, decide_eq_false_iff_not] at hws
  push_neg at hws
  rcases hps with h | h | h | h | h | h | h | h | h | h | h | h <;> subst h <;>
    first
      | exact absurd rfl hws.1
      | exact absurd rfl hws.2.1
      | exact absurd rfl hws.2.2.1
      | exact absurd rfl hws.2.2.2
      | exact ⟨by decide, by decide, by decide, by decide, by decide,
          by decide, by decide, by decide⟩

/-- On blank (all-Python-whitespace) text the parser fails: Python's
`str.strip` whitespace that survives JSON whitespace skipping cannot start
a JSON value. -/
theorem loads_of_blank (text : Str) (h : (strip text).isEmpty = true) :
    loads text = none := by
  have hall := strip_isEmpty_all_space text h
  have hpv : parseVal (text.length + 1) text = none := by
    cases hskip : skipWs text with
    | nil =>
        rw [parseVal, hskip]
    | cons c tl =>
        have hc_mem : c ∈ text := by
          have hsub : skipWs text <:+ text := List.dropWhile_suffix jsonWs
          exact hsub.subset (by rw [hskip]; exact List.mem_cons_self c tl)
        have hps : pyIsSpace c = true := hall c hc_mem
        have hws : jsonWs c = false := dropWhile_head_false jsonWs text c tl hskip
        obtain ⟨hdig, hn, ht, hf, hq, hlb, hob, hmi⟩ := pySpace_not_starter c hps hws
        rw [parseVal, hskip]
        refine ((if_neg hn).trans ((if_neg ht).trans ((if_neg hf).trans
          ((if_neg hq).trans ((if_neg hlb).trans ((if_neg hob).trans
            (if_neg hmi))))))).trans ?_
        rw [parseNum_nondigit c tl hdig]
  rw [loads, hpv]

/-- `_read_json` on non-blank content follows `json.loads`. -/
theorem readJson_nonblank (text : Str) (h : (strip text).isEmpty = false) :
    readJson (some text)
      = (match loads text with
         | some v => ReadResult.ok v
         | none => ReadResult.parseError) := by
  rw [readJson, h]
  rfl

theorem writeJson_head (data : Dict) : ∃ tl, writeJson data = '\x7b' :: tl := by
  cases data with
  | nil => exact ⟨_, rfl⟩
  | cons kv kvs =>
      obtain ⟨k, v⟩ := kv
      exact ⟨_, rfl⟩

/-! ## Claims C7, C8, C10 -/

/-- C7: `_write_json` followed by `_read_json` on the same path returns a
structure deep-equal to the input, for JSON-representable structures
(dicts with distinct keys at every level; numbers are integers in this
model). -/
theorem write_read_roundtrip (data : Dict) (h : jwf (JVal.obj data) = true) :
    readJson (some (writeJson data)) = ReadResult.ok (JVal.obj data) := by
  obtain ⟨tl, htl⟩ := writeJson_head data
  have hne : (strip (writeJson data)).isEmpty = false := by
    rw [htl]
    exact strip_cons_not_space '\x7b' tl (by decide)
  rw [readJson_nonblank _ hne, loads_writeJson data h]

/-- Witness for C7: a document with an empty mapping and a nested list
round-trips. -/
theorem write_read_roundtrip_witness :
    jwf (JVal.obj [(['a'], JVal.arr [JVal.num 1, JVal.num (-2), JVal.arr []]),
      (['b'], JVal.obj [])]) = true ∧
    readJson (some (writeJson
        [(['a'], JVal.arr [JVal.num 1, JVal.num (-2), JVal.arr []]),
         (['b'], JVal.obj [])]))
      = ReadResult.ok (JVal.obj
          [(['a'], JVal.arr [JVal.num 1, JVal.num (-2), JVal.arr []]),
           (['b'], JVal.obj [])]) :=
  ⟨by rfl, write_read_roundtrip _ (by rfl)⟩

/-- C8: `_read_json` returns an empty mapping when the file is absent or
its content is blank, and propagates a parse error exactly when the
non-blank content is malformed JSON (no empty-dict fallback, no partial
result). -/
theorem read_json_error_spec :
    readJson none = ReadResult.ok (JVal.obj []) ∧
    (∀ text : Str, (strip text).isEmpty = true →
        readJson (some text) = ReadResult.ok (JVal.obj [])) ∧
    (∀ text : Str, (strip text).isEmpty = false →
        ((readJson (some text) = ReadResult.parseError ↔ loads text = none) ∧
         ∀ v : JVal, loads text = some v →
            readJson (some text) = ReadResult.ok v)) := by
  refine ⟨rfl, ?_, ?_⟩
  · intro text h
    rw [readJson, h]
    rfl
  · intro text h
    refine ⟨⟨?_, ?_⟩, ?_⟩
    · intro hres
      cases hl : loads text with
      | none => rfl
      | some v =>
          rw [readJson_nonblank text h, hl] at hres
          cases hres
    · intro hl
      rw [readJson_nonblank text h, hl]
    · intro v hl
      rw [readJson_nonblank text h, hl]

/-- Witness for C8: a lone brace is a fatal parse error, blank content an
empty mapping. -/
theorem read_json_error_spec_witness :
    readJson (some ['\x7b']) = ReadResult.parseError ∧
    readJson (some [' ', '\t']) = ReadResult.ok (JVal.obj []) :=
  ⟨((read_json_error_spec.2.2 ['\x7b'] (by rfl)).1).mpr (by rfl),
   read_json_error_spec.2.1 [' ', '\t'] (by rfl)⟩

/-- C10: content that parses as a non-object JSON value (list, string,
number, boolean, null) is returned unchanged by `_read_json` — neither an
empty mapping nor an error — despite the declared dict result type. -/
theorem read_json_non_mapping (text : Str) (v : JVal)
    (hv : loads text = some v) (_hno : asObj v = none) :
    readJson (some text) = ReadResult.ok v := by
  have hblank : (strip text).isEmpty = false := by
    cases hb : (strip text).isEmpty with
    | true =>
        rw [loads_of_blank text hb] at hv
        cases hv
    | false => rfl
  rw [readJson_nonblank text hblank, hv]

/-- Witness for C10: a top-level list comes back as-is. -/
theorem read_json_non_mapping_witness :
    readJson (some ['[', '1', ']']) = ReadResult.ok (JVal.arr [JVal.num 1]) :=
  read_json_non_mapping ['[', '1', ']'] (JVal.arr [JVal.num 1])
    (by rfl) (by rfl)

end ECC
